import Mathlib

/-!
Verification development for the DomSphere Site Intelligence Pipeline.

The definitions below are a shallow embedding of the Python source:

* `apps/api/db/crud.py` — page-registry reconciliation (`bulk_upsert_site_pages`,
  `upsert_site_map_pages`);
* `apps/api/helper/common.py` — URL canonicalization (`_normalize_internal_url`),
  the breadth-first sitemap crawler (`generate_site_map`), the DOM atlas builder
  (`_build_dom_atlas`), and the embedding index
  (`_vector_to_numpy`, `_normalize_numpy`, `search_site_embeddings`);
* `apps/api/routes/site.py` — the batch embedding loop (`_embed_pages`).

Conventions: Python `datetime` values are modelled as abstract `Nat` timestamps;
Python dicts with string keys/values are association lists; machine floats are
modelled as an extended type `Flt` (a real number, `inf`, `-inf` or `nan`) whose
finite part is an idealized real; fallible code returns `Option`.
-/

namespace DomSphere

/-! ## Page registry (apps/api/db/crud.py)

The `SitePage` ORM row.  The model class itself lives in `db/models.py`
(not in the sources for this subsystem), but every field is fixed by its
uses in `crud.py`: `url`, `status`, `meta`, `content_hash`, `first_seen_at`,
`last_seen_at`, `last_crawled_at`, `updated_at` (plus refresh timestamps that
`bulk_upsert_site_pages` never touches, omitted here).  Metadata dicts are
modelled as string association lists. -/

abbrev Meta := List (String × String)

structure SitePageRow where
  url : String
  status : String
  meta : Option Meta
  contentHash : Option String
  firstSeenAt : Nat
  lastSeenAt : Nat
  lastCrawledAt : Nat
  updatedAt : Nat
deriving DecidableEq, Repr

/-- One element of the `pages: Sequence[dict]` argument of
`bulk_upsert_site_pages`: the keys read by the function are
`url`, `meta`, `content_hash` and `last_crawled_at`.  A Python dict missing
a key (or holding `None`) is modelled with `none`; the "falsy url" test
`if not url` on strings is the test `url = ""`. -/
structure PageIn where
  url : String
  meta : Option Meta := none
  contentHash : Option String := none
  lastCrawledAt : Option Nat := none
deriving DecidableEq, Repr

/-- The per-page update applied to an existing row
(`record.status = "active"; record.last_seen_at = now; ...` branch). -/
def upsertExisting (now : Nat) (page : PageIn) (r : SitePageRow) : SitePageRow :=
  { r with
    status := "active"
    lastSeenAt := now
    lastCrawledAt := page.lastCrawledAt.getD now
    meta := match page.meta with | none => r.meta | some m => some m
    contentHash := match page.contentHash with | none => r.contentHash | some c => some c }

/-- The freshly created row (`SitePage(site_id=..., status="active", ...)` branch). -/
def newRow (now : Nat) (page : PageIn) : SitePageRow :=
  { url := page.url
    status := "active"
    meta := page.meta
    contentHash := page.contentHash
    firstSeenAt := now
    lastSeenAt := now
    lastCrawledAt := page.lastCrawledAt.getD now
    updatedAt := now }

/-- One iteration of the `for page in pages` loop.  `existingUrls` is the url
key-set of the table snapshot taken before the loop (`existing = {row.url: row ...}`);
as in the source, membership is tested against that snapshot, not against rows
added during the loop.  The accumulator carries (mutated original rows, rows
added by `session.add`). -/
def bulkUpsertStep (now : Nat) (existingUrls : List String)
    (acc : List SitePageRow × List SitePageRow) (page : PageIn) :
    List SitePageRow × List SitePageRow :=
  if page.url = "" then acc
  else if page.url ∈ existingUrls then
    (acc.1.map fun r => if r.url = page.url then upsertExisting now page r else r, acc.2)
  else
    (acc.1, acc.2 ++ [newRow now page])

/-- The mark-missing sweep body: an existing row whose url is not in
`seen_urls` and whose status is not already `"gone"` is flipped to `"gone"`
with `updated_at = now`. -/
def markGone (now : Nat) (seenUrls : List String) (r : SitePageRow) : SitePageRow :=
  if r.url ∈ seenUrls then r
  else if r.status ≠ "gone" then { r with status := "gone", updatedAt := now }
  else r

/-- `bulk_upsert_site_pages(site_id, pages, mark_missing)` from
`apps/api/db/crud.py` (lines 84–149), for a single site.  The registry is the
list of `SitePage` rows of that site; the result is the new registry together
with the returned `(touched, marked_gone)` counters.  `now` stands for the
single `_now()` taken at entry. -/
def bulk_upsert_site_pages (now : Nat) (rows : List SitePageRow)
    (pages : List PageIn) (markMissing : Bool) :
    List SitePageRow × Nat × Nat :=
  if pages = [] then (rows, 0, 0)
  else
    let seenUrls := (pages.map PageIn.url).filter (· ≠ "")
    let existingUrls := rows.map SitePageRow.url
    let upserted := pages.foldl (bulkUpsertStep now existingUrls) (rows, [])
    let touched := (pages.filter (fun p => p.url ≠ "")).length
    let sweep := markMissing ∧ rows ≠ []
    let markedGone :=
      if sweep then
        (upserted.1.filter (fun r => r.url ∉ seenUrls ∧ r.status ≠ "gone")).length
      else 0
    let final :=
      if sweep then upserted.1.map (markGone now seenUrls) else upserted.1
    (final ++ upserted.2, touched, markedGone)

/-! The sitemap-table sibling (`upsert_site_map_pages`, `crud.py` 361–387) and
the helper `store_site_map_pages` (`helper/common.py` 355–377) that drives both. -/

structure SiteMapRow where
  url : String
  meta : Option Meta
deriving DecidableEq, Repr

/-- `upsert_site_map_pages(site_id, pages, replace)`: update metadata of rows
whose url is listed, insert rows for new urls, and when `replace` is set delete
every current row whose url was not seen. -/
def upsert_site_map_pages (rows : List SiteMapRow)
    (pages : List (String × Option Meta)) (replace : Bool) : List SiteMapRow :=
  let urlsSeen := (pages.map Prod.fst).filter (· ≠ "")
  let existingUrls := rows.map SiteMapRow.url
  let upserted := pages.foldl
    (fun (acc : List SiteMapRow × List SiteMapRow) page =>
      if page.1 = "" then acc
      else if page.1 ∈ existingUrls then
        (acc.1.map fun r => if r.url = page.1 then { r with meta := page.2 } else r, acc.2)
      else (acc.1, acc.2 ++ [⟨page.1, page.2⟩]))
    (rows, [])
  let kept := if replace then upserted.1.filter (fun r => r.url ∈ urlsSeen) else upserted.1
  kept ++ upserted.2

/-- The `SiteMapPage` contract model (`packages/contracts/client_api.py`). -/
structure SiteMapPageC where
  url : String
  meta : Option Meta := none
deriving DecidableEq, Repr

/-- `store_site_map_pages(site_id, pages, mark_missing)` from
`helper/common.py`: returns immediately on an empty page list, otherwise
replaces the legacy sitemap table (with `replace=mark_missing`) and reconciles
the page registry via `bulk_upsert_site_pages` with `content_hash` pulled from
`meta["hash"]` and `last_crawled_at = now`.  The state is the pair
(sitemap table, page registry). -/
def store_site_map_pages (now : Nat)
    (state : List SiteMapRow × List SitePageRow)
    (pages : List SiteMapPageC) (markMissing : Bool) :
    List SiteMapRow × List SitePageRow :=
  if pages = [] then state
  else
    let payload := pages.map (fun p => (p.url, p.meta))
    let sm := upsert_site_map_pages state.1 payload markMissing
    let pageIns := pages.map (fun p =>
      { url := p.url
        meta := p.meta
        contentHash := match p.meta with
          | none => none
          | some m => (m.find? (fun kv => kv.1 = "hash")).map Prod.snd
        lastCrawledAt := some now : PageIn })
    (sm, (bulk_upsert_site_pages now state.2 pageIns markMissing).1)

/-! ### Reconciliation lemmas -/

/-- The effect of one page on one pre-existing row. -/
def stepRow (now : Nat) (eUrls : List String) (r : SitePageRow) (p : PageIn) : SitePageRow :=
  if p.url ≠ "" ∧ p.url ∈ eUrls ∧ r.url = p.url then upsertExisting now p r else r

/-- The cumulative effect of the upsert loop on one pre-existing row. -/
def foldRow (now : Nat) (eUrls : List String) (pages : List PageIn) (r : SitePageRow) :
    SitePageRow :=
  pages.foldl (stepRow now eUrls) r

theorem bulkUpsertStep_fst (now : Nat) (eUrls : List String)
    (acc : List SitePageRow × List SitePageRow) (p : PageIn) :
    (bulkUpsertStep now eUrls acc p).1 = acc.1.map (fun r => stepRow now eUrls r p) := by
  by_cases h1 : p.url = ""
  · simp [bulkUpsertStep, stepRow, h1]
  · by_cases h2 : p.url ∈ eUrls
    · simp only [bulkUpsertStep, if_neg h1, if_pos h2]
      refine List.map_congr_left fun r _ => ?_
      by_cases h3 : r.url = p.url <;> simp [stepRow, h1, h2, h3]
    · simp [bulkUpsertStep, stepRow, h1, h2]

theorem bulkUpsertStep_snd (now : Nat) (eUrls : List String)
    (acc : List SitePageRow × List SitePageRow) (p : PageIn) :
    (bulkUpsertStep now eUrls acc p).2 =
      if p.url ≠ "" ∧ p.url ∉ eUrls then acc.2 ++ [newRow now p] else acc.2 := by
  by_cases h1 : p.url = ""
  · simp [bulkUpsertStep, h1]
  · by_cases h2 : p.url ∈ eUrls <;> simp [bulkUpsertStep, h1, h2]

theorem bulkUpsert_fold_fst (now : Nat) (eUrls : List String) (pages : List PageIn) :
    ∀ acc : List SitePageRow × List SitePageRow,
      (pages.foldl (bulkUpsertStep now eUrls) acc).1 = acc.1.map (foldRow now eUrls pages) := by
  induction pages with
  | nil => intro acc; simp only [List.foldl_nil, foldRow]; exact (List.map_id _).symm
  | cons p ps ih =>
    intro acc
    rw [List.foldl_cons, ih, bulkUpsertStep_fst, List.map_map]
    rfl

theorem bulkUpsert_fold_snd (now : Nat) (eUrls : List String) (pages : List PageIn) :
    ∀ acc : List SitePageRow × List SitePageRow,
      (pages.foldl (bulkUpsertStep now eUrls) acc).2 =
        acc.2 ++ (pages.filter (fun p => p.url ≠ "" ∧ p.url ∉ eUrls)).map (newRow now) := by
  induction pages with
  | nil => intro acc; simp
  | cons p ps ih =>
    intro acc
    rw [List.foldl_cons, ih]
    by_cases h : p.url ≠ "" ∧ p.url ∉ eUrls
    · rw [bulkUpsertStep_snd, if_pos h, List.filter_cons_of_pos (by simpa using h)]
      simp
    · rw [bulkUpsertStep_snd, if_neg h, List.filter_cons_of_neg (by simpa using h)]

theorem upsertExisting_url (now : Nat) (p : PageIn) (r : SitePageRow) :
    (upsertExisting now p r).url = r.url := rfl

theorem stepRow_url (now : Nat) (eUrls : List String) (r : SitePageRow) (p : PageIn) :
    (stepRow now eUrls r p).url = r.url := by
  unfold stepRow; split <;> rfl

theorem foldRow_url (now : Nat) (eUrls : List String) (pages : List PageIn) :
    ∀ r, (foldRow now eUrls pages r).url = r.url := by
  induction pages with
  | nil => intro r; rfl
  | cons p ps ih => intro r; rw [foldRow, List.foldl_cons, ← foldRow, ih, stepRow_url]

theorem foldRow_of_not_mem (now : Nat) (eUrls : List String) (pages : List PageIn)
    (r : SitePageRow) (h : r.url ∉ pages.map PageIn.url) :
    foldRow now eUrls pages r = r := by
  induction pages with
  | nil => rfl
  | cons p ps ih =>
    have hne : r.url ≠ p.url := fun hc => h (by simp [hc])
    rw [foldRow, List.foldl_cons, ← foldRow, stepRow, if_neg (by tauto)]
    exact ih (fun hc => h (by simpa using Or.inr hc))

theorem foldRow_status (now : Nat) (eUrls : List String) (pages : List PageIn) :
    ∀ r, (foldRow now eUrls pages r).status = r.status ∨
      (foldRow now eUrls pages r).status = "active" := by
  induction pages with
  | nil => intro r; exact Or.inl rfl
  | cons p ps ih =>
    intro r
    rw [foldRow, List.foldl_cons, ← foldRow]
    rcases ih (stepRow now eUrls r p) with h | h
    · rw [h]; unfold stepRow; split
      · exact Or.inr rfl
      · exact Or.inl rfl
    · exact Or.inr h

theorem foldRow_active (now : Nat) (eUrls : List String) (pages : List PageIn)
    (r : SitePageRow) (p : PageIn) (hp : p ∈ pages) (h1 : p.url = r.url)
    (h2 : p.url ≠ "") (h3 : p.url ∈ eUrls) :
    (foldRow now eUrls pages r).status = "active" := by
  induction pages generalizing r with
  | nil => cases hp
  | cons q ps ih =>
    rw [foldRow, List.foldl_cons, ← foldRow]
    rcases List.mem_cons.mp hp with hq | hq
    · subst hq
      have hstep : stepRow now eUrls r p = upsertExisting now p r := by
        rw [stepRow, if_pos ⟨h2, h3, h1.symm⟩]
      rcases foldRow_status now eUrls ps (stepRow now eUrls r p) with h | h
      · rw [h, hstep]; rfl
      · exact h
    · exact ih (stepRow now eUrls r q) hq (by rw [stepRow_url]; exact h1)

theorem markGone_url (now : Nat) (seen : List String) (r : SitePageRow) :
    (markGone now seen r).url = r.url := by
  unfold markGone; split
  · rfl
  · split <;> rfl

theorem markGone_of_mem (now : Nat) (seen : List String) (r : SitePageRow)
    (h : r.url ∈ seen) : markGone now seen r = r := by
  rw [markGone, if_pos h]

theorem markGone_status_gone (now : Nat) (seen : List String) (r : SitePageRow)
    (h : r.url ∉ seen) : (markGone now seen r).status = "gone" := by
  rw [markGone, if_neg h]
  by_cases hs : r.status = "gone"
  · rw [if_neg (by simpa using hs)]; exact hs
  · rw [if_pos (by simpa using hs)]

/-- Shape of the registry produced by a non-empty reconciliation run with
`mark_missing=True`: the pre-existing rows, each updated by the upsert loop and
then (when the table was non-empty) by the mark-missing sweep, followed by the
rows created for previously unknown urls. -/
theorem bulk_upsert_fst_eq (now : Nat) (rows : List SitePageRow) (pages : List PageIn)
    (hne : pages ≠ []) :
    (bulk_upsert_site_pages now rows pages true).1 =
      (if rows ≠ [] then
        (rows.map (foldRow now (rows.map SitePageRow.url) pages)).map
          (markGone now ((pages.map PageIn.url).filter (· ≠ "")))
      else rows.map (foldRow now (rows.map SitePageRow.url) pages)) ++
      (pages.filter (fun p => p.url ≠ "" ∧ p.url ∉ rows.map SitePageRow.url)).map
        (newRow now) := by
  rw [bulk_upsert_site_pages, if_neg hne]
  simp only [bulkUpsert_fold_fst, bulkUpsert_fold_snd, List.nil_append]
  by_cases hr : rows = []
  · simp [hr]
  · simp [hr]

/-- **C1.** For every site and every full-crawl reconciliation run with
mark-missing enabled (`bulk_upsert_site_pages` with `mark_missing=True` over the
crawl's discovered pages — a non-empty list of pages with non-empty urls, which
is the only way the full-crawl path `store_site_map_pages` ever invokes it),
after it completes the set of pages with status `"active"` in the registry
equals exactly the set of discovered URLs, and every previously stored page
whose URL is not in the discovered set has status `"gone"`. -/
theorem bulk_upsert_reconciliation_active_set
    (now : Nat) (rows : List SitePageRow) (pages : List PageIn)
    (hne : pages ≠ []) (hurls : ∀ p ∈ pages, p.url ≠ "") :
    (∀ u, (∃ r' ∈ (bulk_upsert_site_pages now rows pages true).1,
        r'.url = u ∧ r'.status = "active") ↔ u ∈ pages.map PageIn.url) ∧
    (∀ r ∈ rows, r.url ∉ pages.map PageIn.url →
      ∀ r' ∈ (bulk_upsert_site_pages now rows pages true).1,
        r'.url = r.url → r'.status = "gone") := by
  have hfilter : (pages.map PageIn.url).filter (· ≠ "") = pages.map PageIn.url := by
    refine List.filter_eq_self.mpr fun u hu => ?_
    rcases List.mem_map.mp hu with ⟨p, hp, hpu⟩
    simpa [hpu] using hurls p hp
  rw [bulk_upsert_fst_eq now rows pages hne, hfilter]
  set eUrls := rows.map SitePageRow.url with heU
  set seen := pages.map PageIn.url with hseen
  constructor
  · intro u
    constructor
    · rintro ⟨r', hr', hu, hact⟩
      rcases List.mem_append.mp hr' with hold | hnew
      · -- r' comes from a pre-existing row
        by_cases hr : rows = []
        · simp [hr] at hold
        · rw [if_pos hr] at hold
          rcases List.mem_map.mp hold with ⟨fr, hfr, hfr'⟩
          rcases List.mem_map.mp hfr with ⟨r0, hr0, hr0'⟩
          by_cases hm : fr.url ∈ seen
          · rw [← hu, ← hfr', markGone_url, ← hr0', foldRow_url]
            rw [← hr0', foldRow_url] at hm
            exact hm
          · exfalso
            have := markGone_status_gone now seen fr hm
            rw [hfr', hact] at this
            exact absurd this (by decide)
      · rcases List.mem_map.mp hnew with ⟨p, hp, hp'⟩
        have hpmem := List.mem_filter.mp hp
        rw [← hu, ← hp']
        exact List.mem_map.mpr ⟨p, hpmem.1, rfl⟩
    · intro hu
      rcases List.mem_map.mp hu with ⟨p, hp, hpu⟩
      by_cases hc : u ∈ eUrls
      · -- an existing row is updated in place and kept active
        rcases List.mem_map.mp hc with ⟨r0, hr0, hr0u⟩
        have hrne : rows ≠ [] := fun h => by simp [h] at hr0
        refine ⟨markGone now seen (foldRow now eUrls pages r0), ?_, ?_, ?_⟩
        · exact List.mem_append.mpr (Or.inl (by
            rw [if_pos hrne]
            exact List.mem_map.mpr ⟨_, List.mem_map.mpr ⟨r0, hr0, rfl⟩, rfl⟩))
        · rw [markGone_url, foldRow_url]; exact hr0u
        · have hmem : (foldRow now eUrls pages r0).url ∈ seen := by
            rw [foldRow_url, hr0u]; exact hu
          rw [markGone_of_mem now seen _ hmem]
          exact foldRow_active now eUrls pages r0 p hp (by rw [hpu, hr0u])
            (hurls p hp) (by rw [hpu]; exact hc)
      · -- a fresh row is created
        refine ⟨newRow now p, ?_, ?_, rfl⟩
        · refine List.mem_append.mpr (Or.inr (List.mem_map.mpr ⟨p, ?_, rfl⟩))
          exact List.mem_filter.mpr ⟨hp, by
            simp only [decide_eq_true_eq]
            exact ⟨hurls p hp, by rw [hpu]; exact hc⟩⟩
        · exact hpu
  · intro r hr hnot r' hr' hu
    have hrne : rows ≠ [] := fun h => by simp [h] at hr
    rw [if_pos hrne] at hr'
    rcases List.mem_append.mp hr' with hold | hnew
    · rcases List.mem_map.mp hold with ⟨fr, hfr, hfr'⟩
      rcases List.mem_map.mp hfr with ⟨r0, _, hr0'⟩
      have hfru : fr.url = r.url := by rw [← hr0', foldRow_url, ← hu, ← hfr', markGone_url,
        ← hr0', foldRow_url]
      rw [← hfr']
      exact markGone_status_gone now seen fr (by rw [hfru]; exact hnot)
    · exfalso
      rcases List.mem_map.mp hnew with ⟨p, hp, hp'⟩
      have hpmem := List.mem_filter.mp hp
      have : r'.url = p.url := by rw [← hp']; rfl
      exact hnot (by rw [← hu, this]; exact List.mem_map.mpr ⟨p, hpmem.1, rfl⟩)

/-- Witness for C1 at a concrete input: registry holding an active row for
`"http://h/a"` and a gone row for `"http://h/b"`, reconciled against the
discovered set `{"http://h/b", "http://h/c"}`. -/
theorem bulk_upsert_reconciliation_active_set_witness :
    (([⟨"http://h/b", none, none, none⟩, ⟨"http://h/c", none, none, none⟩] : List PageIn) ≠ [] ∧
      ∀ p ∈ ([⟨"http://h/b", none, none, none⟩, ⟨"http://h/c", none, none, none⟩] : List PageIn),
        p.url ≠ "") ∧
    ((∀ u, (∃ r' ∈ (bulk_upsert_site_pages 7
        [⟨"http://h/a", "active", none, none, 0, 0, 0, 0⟩,
         ⟨"http://h/b", "gone", none, none, 0, 0, 0, 0⟩]
        [⟨"http://h/b", none, none, none⟩, ⟨"http://h/c", none, none, none⟩] true).1,
        r'.url = u ∧ r'.status = "active") ↔
        u ∈ ([⟨"http://h/b", none, none, none⟩, ⟨"http://h/c", none, none, none⟩] :
          List PageIn).map PageIn.url) ∧
     (∀ r ∈ ([⟨"http://h/a", "active", none, none, 0, 0, 0, 0⟩,
             ⟨"http://h/b", "gone", none, none, 0, 0, 0, 0⟩] : List SitePageRow),
        r.url ∉ ([⟨"http://h/b", none, none, none⟩, ⟨"http://h/c", none, none, none⟩] :
          List PageIn).map PageIn.url →
        ∀ r' ∈ (bulk_upsert_site_pages 7
          [⟨"http://h/a", "active", none, none, 0, 0, 0, 0⟩,
           ⟨"http://h/b", "gone", none, none, 0, 0, 0, 0⟩]
          [⟨"http://h/b", none, none, none⟩, ⟨"http://h/c", none, none, none⟩] true).1,
          r'.url = r.url → r'.status = "gone")) :=
  ⟨⟨by decide, by decide⟩,
    bulk_upsert_reconciliation_active_set 7
      [⟨"http://h/a", "active", none, none, 0, 0, 0, 0⟩,
       ⟨"http://h/b", "gone", none, none, 0, 0, 0, 0⟩]
      [⟨"http://h/b", none, none, none⟩, ⟨"http://h/c", none, none, none⟩]
      (by decide) (by decide)⟩

/-- **C10.** Reconciling an empty discovered-pages list is a complete no-op on
the page registry: `bulk_upsert_site_pages` with an empty pages sequence
returns `(rows, 0, 0)` leaving every existing row unchanged (in particular no
page transitions to `"gone"`, even with `mark_missing=True`), and
`store_site_map_pages` with an empty list leaves both tables unchanged. -/
theorem empty_reconciliation_noop (now : Nat)
    (state : List SiteMapRow × List SitePageRow) (rows : List SitePageRow) (mm : Bool) :
    store_site_map_pages now state [] mm = state ∧
    bulk_upsert_site_pages now rows [] mm = (rows, 0, 0) := by
  constructor
  · rw [store_site_map_pages, if_pos rfl]
  · rw [bulk_upsert_site_pages, if_pos rfl]

/-! ## Atlas Builder (`_build_dom_atlas`, helper/common.py 313–352)

The parsed HTML handed to the builder by BeautifulSoup is modelled as a tree of
element nodes carrying the attributes the builder reads (`tag`, `id`, `class`,
`role`).  `soup.find_all(True, limit=200)` is the document-order (pre-order)
traversal truncated to 200 elements; node identity (`id(node)` in the source)
is modelled by the node's path of child positions.  The `dataAttrs` and
`textSample` fields of the produced elements only copy attribute/text payload
and play no role in index assignment; they are omitted from the model. -/

inductive DomNode where
  | mk (tag : String) (idAttr : Option String) (classes : Option (List String))
       (role : Option String) (children : List DomNode)

def DomNode.tag : DomNode → String
  | .mk t _ _ _ _ => t

def DomNode.idAttr : DomNode → Option String
  | .mk _ i _ _ _ => i

def DomNode.classes : DomNode → Option (List String)
  | .mk _ _ c _ _ => c

def DomNode.role : DomNode → Option String
  | .mk _ _ _ r _ => r

def DomNode.children : DomNode → List DomNode
  | .mk _ _ _ _ ch => ch

mutual
/-- Pre-order (document-order) traversal of one node, tagging each element with
its path of child positions. -/
def preorderNode : List Nat → DomNode → List (List Nat × DomNode)
  | path, .mk t i c r ch => (path, .mk t i c r ch) :: preorderKids path 0 ch

def preorderKids : List Nat → Nat → List DomNode → List (List Nat × DomNode)
  | _, _, [] => []
  | path, k, c :: rest => preorderNode (path ++ [k]) c ++ preorderKids path (k + 1) rest
end

/-- Look an element up by its path of child positions (`[]` is the document
itself, which is not an element). -/
def nodeAt : List DomNode → List Nat → Option DomNode
  | _, [] => none
  | ns, k :: rest =>
    match ns[k]? with
    | none => none
    | some n => if rest.isEmpty then some n else nodeAt n.children rest

/-- The class part of a CSS-path segment: `tag.class1.class2...` when a
non-empty class list is present (`elif classes:`), else the bare tag. -/
def cssSegmentClasses (n : DomNode) : String :=
  match n.classes with
  | some (c :: cs) => n.tag ++ "." ++ String.intercalate "." (c :: cs)
  | _ => n.tag

/-- One segment of `_css_path`: `tag#id` when a truthy id is present, else the
class form. -/
def cssSegment (n : DomNode) : String :=
  match n.idAttr with
  | some i => if i = "" then cssSegmentClasses n else n.tag ++ "#" ++ i
  | none => cssSegmentClasses n

/-- `_css_path(node)`: ancestor segments from the root down to the node joined
by spaces.  BeautifulSoup's parent walk also visits the soup object itself,
whose name is `"[document]"`, so that segment heads the path. -/
def cssPathOf (doc : List DomNode) (path : List Nat) : String :=
  let segs := (List.range path.length).filterMap
    (fun k => (nodeAt doc (path.take (k + 1))).map cssSegment)
  String.intercalate " " ("[document]" :: segs)

/-- The ancestor chain of a path, nearest ancestor first, ending with `[]`
(the document). -/
def ancestorPaths (p : List Nat) : List (List Nat) :=
  (List.range p.length).map (fun k => p.take (p.length - 1 - k))

structure AtlasElement where
  idx : Nat
  tag : String
  idAttr : Option String
  classList : Option (List String)
  role : Option String
  cssPath : String
  parentIdx : Option Nat
deriving DecidableEq, Repr

/-- One iteration of the `for idx, node in enumerate(...)` loop: compute
`parentIdx` by walking up the ancestor chain through the index map built so
far (`node_index`), append the element, then register the node's index. -/
def atlasStep (doc : List DomNode)
    (acc : List AtlasElement × List (List Nat × Nat)) (pn : List Nat × DomNode) :
    List AtlasElement × List (List Nat × Nat) :=
  let parentIdx := (ancestorPaths pn.1).findSome?
    (fun q => ((acc.2.find? (fun e => e.1 = q)).map Prod.snd))
  let idx := acc.1.length
  (acc.1 ++ [{ idx := idx, tag := pn.2.tag, idAttr := pn.2.idAttr,
               classList := pn.2.classes, role := pn.2.role,
               cssPath := cssPathOf doc pn.1, parentIdx := parentIdx }],
   acc.2 ++ [(pn.1, idx)])

/-- The element list of `_build_dom_atlas(site_id, url, soup, html)`: walk the
first 200 elements in document order, assigning sequential indices.  (The
enclosing atlas payload adds only identifiers, the html hash and timestamps.) -/
def _build_dom_atlas (doc : List DomNode) : List AtlasElement :=
  (((preorderKids [] 0 doc).take 200).foldl (atlasStep doc) ([], [])).1

theorem atlasStep_invariant (doc : List DomNode)
    (acc : List AtlasElement × List (List Nat × Nat)) (pn : List Nat × DomNode)
    (h1 : ∀ pr ∈ acc.2, pr.2 < acc.1.length)
    (h2 : ∀ e ∈ acc.1, ∀ p, e.parentIdx = some p → p < e.idx) :
    (∀ pr ∈ (atlasStep doc acc pn).2, pr.2 < (atlasStep doc acc pn).1.length) ∧
    (∀ e ∈ (atlasStep doc acc pn).1, ∀ p, e.parentIdx = some p → p < e.idx) := by
  constructor
  · intro pr hpr
    rcases List.mem_append.mp hpr with h | h
    · have := h1 pr h
      simp only [atlasStep, List.length_append, List.length_cons, List.length_nil]
      omega
    · simp only [List.mem_singleton] at h
      subst h
      simp only [atlasStep, List.length_append, List.length_cons, List.length_nil]
      omega
  · intro e he p hp
    rcases List.mem_append.mp he with h | h
    · exact h2 e h p hp
    · simp only [List.mem_singleton] at h
      subst h
      simp only at hp
      rcases List.exists_of_findSome?_eq_some hp with ⟨q, _, hq⟩
      rcases Option.map_eq_some'.mp hq with ⟨pr, hfind, hpr⟩
      have := h1 pr (List.mem_of_find?_eq_some hfind)
      simpa [← hpr] using this

theorem atlas_fold_invariant (doc : List DomNode) (nodes : List (List Nat × DomNode)) :
    ∀ acc : List AtlasElement × List (List Nat × Nat),
      (∀ pr ∈ acc.2, pr.2 < acc.1.length) →
      (∀ e ∈ acc.1, ∀ p, e.parentIdx = some p → p < e.idx) →
      ∀ e ∈ (nodes.foldl (atlasStep doc) acc).1, ∀ p, e.parentIdx = some p → p < e.idx := by
  induction nodes with
  | nil => intro acc _ h2; exact h2
  | cons pn rest ih =>
    intro acc h1 h2
    rw [List.foldl_cons]
    have := atlasStep_invariant doc acc pn h1 h2
    exact ih (atlasStep doc acc pn) this.1 this.2

/-- **C4.** In every atlas snapshot produced by the Atlas Builder, every
element whose `parentIdx` is non-null satisfies `parentIdx < idx`: the
referenced parent element appears strictly earlier in the snapshot's ordered
element list. -/
theorem build_dom_atlas_parentIdx_lt_idx (doc : List DomNode)
    (e : AtlasElement) (he : e ∈ _build_dom_atlas doc)
    (p : Nat) (hp : e.parentIdx = some p) : p < e.idx := by
  exact atlas_fold_invariant doc ((preorderKids [] 0 doc).take 200) ([], [])
    (by intro pr hpr; cases hpr) (by intro e he; cases he) e he p hp

/-- A two-element document `<html><body/></html>`, used as the concrete C4
witness input. -/
def atlasDoc1 : List DomNode :=
  [.mk "html" none none none [.mk "body" none none none []]]

/-- The second element the builder produces on `atlasDoc1`. -/
def atlasElt1 : AtlasElement :=
  { idx := 1, tag := "body", idAttr := none, classList := none, role := none,
    cssPath := "[document] html body", parentIdx := some 0 }

/-- Witness for C4: on `atlasDoc1` the `body` element has index 1 and parent
index 0. -/
theorem build_dom_atlas_parentIdx_lt_idx_witness :
    (atlasElt1 ∈ _build_dom_atlas atlasDoc1 ∧ atlasElt1.parentIdx = some 0) ∧
    0 < atlasElt1.idx :=
  ⟨⟨by decide, by decide⟩,
    build_dom_atlas_parentIdx_lt_idx atlasDoc1 atlasElt1 (by decide) 0 (by decide)⟩

/-! ## Embedding index (helper/common.py 596–716, routes/site.py 100–141)

Machine floats are modelled as `Flt`: a finite value is an idealized real
number (rounding is abstracted away), and `inf`, `-inf`, `nan` are the
non-finite IEEE values that `np.isfinite` rejects.  In the idealization a sum
of squares of finite values is always finite, so the `math.isfinite(norm)`
guard of `_normalize_numpy` (which can only fire on float overflow) never
fires; it is recorded as a comment where it occurs. -/

inductive Flt where
  | fin : ℝ → Flt
  | inf : Flt
  | ninf : Flt
  | nan : Flt

/-- `np.where(np.isfinite(arr), arr, 0.0)` applied entrywise: a finite entry
keeps its value, a non-finite entry becomes `0.0`. -/
noncomputable def Flt.toFinite : Flt → ℝ
  | .fin r => r
  | _ => 0

/-- `_vector_to_numpy(vector)`: `None` (and non-sequence input) becomes the
empty array, an empty sequence becomes the empty array, and otherwise the
entries are loaded and the non-finite ones replaced by `0.0`.  (`np.reshape
(arr, (-1,))` is the identity on the 1-D arrays modelled here.) -/
noncomputable def _vector_to_numpy : Option (List Flt) → List ℝ
  | none => []
  | some v => v.map Flt.toFinite

/-- `float(np.linalg.norm(arr))`: the L2 norm. -/
noncomputable def l2norm (v : List ℝ) : ℝ :=
  Real.sqrt (v.map (fun x => x * x)).sum

/-- `_normalize_numpy(vector)`: empty arrays are returned as-is; otherwise the
array is divided by its L2 norm unless that norm is zero (the source also
returns the array as-is when `norm` is not finite, which in this idealization
cannot happen for an array of finite entries). -/
noncomputable def _normalize_numpy (v : Option (List Flt)) : List ℝ :=
  let arr := _vector_to_numpy v
  if arr = [] then arr
  else if l2norm arr = 0 then arr
  else arr.map (· / l2norm arr)

/-- `_normalize_to_list(vector)`. -/
noncomputable def _normalize_to_list (v : Option (List Flt)) : List ℝ :=
  _normalize_numpy v

theorem sum_sq_eq_zero_iff (l : List ℝ) :
    (l.map (fun x => x * x)).sum = 0 ↔ ∀ x ∈ l, x = 0 := by
  induction l with
  | nil => simp
  | cons a rest ih =>
    have hrest : 0 ≤ (rest.map (fun x => x * x)).sum :=
      List.sum_nonneg (by rintro y hy; rcases List.mem_map.mp hy with ⟨x, _, rfl⟩
                          exact mul_self_nonneg x)
    simp only [List.map_cons, List.sum_cons, List.mem_cons]
    rw [add_eq_zero_iff_of_nonneg (mul_self_nonneg a) hrest, mul_self_eq_zero, ih]
    constructor
    · rintro ⟨h0, hall⟩ x (rfl | hx)
      · exact h0
      · exact hall x hx
    · intro h
      exact ⟨h a (Or.inl rfl), fun x hx => h x (Or.inr hx)⟩

theorem l2norm_eq_zero_iff (l : List ℝ) : l2norm l = 0 ↔ ∀ x ∈ l, x = 0 := by
  have hnn : 0 ≤ (l.map (fun x => x * x)).sum :=
    List.sum_nonneg (by rintro y hy; rcases List.mem_map.mp hy with ⟨x, _, rfl⟩
                        exact mul_self_nonneg x)
  rw [l2norm, Real.sqrt_eq_zero hnn, sum_sq_eq_zero_iff]

/-- **C6 counterexample.** A vector containing a non-finite value is *not*
stored as-is without division: on `[inf, 3.0]` the non-finite entry is first
replaced by `0.0` and the result is then divided by its norm, yielding
`[0, 1]` rather than the undivided array `[0, 3]`. -/
theorem normalize_nonfinite_counterexample :
    _normalize_numpy (some [Flt.inf, Flt.fin 3]) ≠
      _vector_to_numpy (some [Flt.inf, Flt.fin 3]) ∧
    _normalize_numpy (some [Flt.inf, Flt.fin 3]) = [0, 1] := by
  have harr : _vector_to_numpy (some [Flt.inf, Flt.fin 3]) = [(0 : ℝ), 3] := by
    simp [_vector_to_numpy, Flt.toFinite]
  have hnorm : l2norm [(0 : ℝ), 3] = 3 := by
    rw [l2norm]
    norm_num
    rw [show (9 : ℝ) = 3 ^ 2 by norm_num, Real.sqrt_sq (by norm_num : (0 : ℝ) ≤ 3)]
  have hres : _normalize_numpy (some [Flt.inf, Flt.fin 3]) = [0, 1] := by
    simp only [_normalize_numpy, harr, hnorm]
    rw [if_neg (by simp : ¬([(0 : ℝ), 3] = [])), if_neg (by norm_num : ¬(3 : ℝ) = 0)]
    norm_num
  refine ⟨?_, hres⟩
  rw [hres, harr]
  intro h
  have := List.cons.injEq (0 : ℝ) [1] 0 [3] ▸ h
  simp at this

/-- **C6 (amended).** On the embedding write path, an empty vector, and a
vector whose entries are all zero *after* the non-finite entries have been
replaced by `0.0`, are stored without being divided; every other vector is
divided by its L2 norm, which is then provably nonzero — so no division by
zero ever occurs.  (The claim's "contains non-finite values ⇒ stored as-is"
case is refuted by `normalize_nonfinite_counterexample`: non-finite entries
are zeroed, and the vector is divided whenever a nonzero finite entry
remains.) -/
theorem normalize_numpy_spec (v : Option (List Flt)) :
    (_vector_to_numpy v = [] ∨ (∀ x ∈ _vector_to_numpy v, x = 0) →
      _normalize_numpy v = _vector_to_numpy v) ∧
    (_vector_to_numpy v ≠ [] ∧ (∃ x ∈ _vector_to_numpy v, x ≠ 0) →
      l2norm (_vector_to_numpy v) ≠ 0 ∧
      _normalize_numpy v =
        (_vector_to_numpy v).map (· / l2norm (_vector_to_numpy v))) := by
  constructor
  · rintro (h | h)
    · rw [_normalize_numpy, if_pos h]
    · by_cases he : _vector_to_numpy v = []
      · rw [_normalize_numpy, if_pos he]
      · rw [_normalize_numpy, if_neg he, if_pos ((l2norm_eq_zero_iff _).mpr h)]
  · rintro ⟨he, x, hx, hxne⟩
    have hz : l2norm (_vector_to_numpy v) ≠ 0 := by
      rw [Ne, l2norm_eq_zero_iff]
      exact fun h => hxne (h x hx)
    exact ⟨hz, by rw [_normalize_numpy, if_neg he, if_neg hz]⟩

/-- Witness for C6 (amended) at the concrete vector `[3.0, 4.0]`: it is
non-empty with a nonzero entry, so it is divided by its (nonzero) norm. -/
theorem normalize_numpy_spec_witness :
    (_vector_to_numpy (some [Flt.fin 3, Flt.fin 4]) ≠ [] ∧
      ∃ x ∈ _vector_to_numpy (some [Flt.fin 3, Flt.fin 4]), x ≠ 0) ∧
    (l2norm (_vector_to_numpy (some [Flt.fin 3, Flt.fin 4])) ≠ 0 ∧
      _normalize_numpy (some [Flt.fin 3, Flt.fin 4]) =
        (_vector_to_numpy (some [Flt.fin 3, Flt.fin 4])).map
          (· / l2norm (_vector_to_numpy (some [Flt.fin 3, Flt.fin 4])))) := by
  have h : _vector_to_numpy (some [Flt.fin 3, Flt.fin 4]) ≠ [] ∧
      ∃ x ∈ _vector_to_numpy (some [Flt.fin 3, Flt.fin 4]), x ≠ 0 := by
    constructor
    · simp [_vector_to_numpy, Flt.toFinite]
    · refine ⟨3, ?_, by norm_num⟩
      simp [_vector_to_numpy, Flt.toFinite]
  exact ⟨h, (normalize_numpy_spec (some [Flt.fin 3, Flt.fin 4])).2 h⟩

/-! ### Semantic search (`search_site_embeddings`)

A stored `SiteEmbedding` record as surfaced by `get_site_embeddings`: the
`embedding` list (`list(record.embedding or [])` maps a SQL `NULL` to `[]`,
which `_normalize_numpy` also maps to the empty array), the source text and
the metadata.  `np.argpartition` + `np.argsort` over the score array is
modelled extensionally: the index list sorted by descending score, truncated
to `limit` — the same selection and order, up to tie-breaking, which numpy
leaves unspecified. -/

structure EmbRecordStored where
  embedding : Option (List Flt)
  text : String
  meta : Meta

/-- The payload dict returned per hit, with its `embedding` entry overwritten
by the normalized vector (`payload["embedding"] = [float(x) ...]`). -/
structure EmbPayload where
  embedding : List ℝ
  text : String
  meta : Meta

/-- `matrix @ query_vector` for one row: the dot product. -/
noncomputable def dotR (a b : List ℝ) : ℝ :=
  ((a.zip b).map fun p => p.1 * p.2).sum

/-- The dimension filter loop: normalize each stored vector and keep
`(url, normalized, text, meta)` for the vectors that are non-empty and match
the query dimension. -/
noncomputable def searchValid (records : List (String × EmbRecordStored)) (q : List ℝ) :
    List (String × List ℝ × String × Meta) :=
  records.filterMap fun r =>
    let nv := _normalize_numpy r.2.embedding
    if nv = [] ∨ nv.length ≠ q.length then none
    else some (r.1, nv, r.2.text, r.2.meta)

/-- `scores = matrix @ query_vector`. -/
noncomputable def searchScores (valid : List (String × List ℝ × String × Meta))
    (q : List ℝ) : List ℝ :=
  valid.map fun t => dotR t.2.1 q

/-- The selected indices in descending score order
(`top_indices[np.argsort(scores[top_indices])[::-1]]`). -/
noncomputable def searchOrdered (valid : List (String × List ℝ × String × Meta))
    (q : List ℝ) (limit : Nat) : List Nat :=
  ((List.range valid.length).mergeSort fun i j =>
    decide ((searchScores valid q).getD j 0 ≤ (searchScores valid q).getD i 0)).take limit

/-- `search_site_embeddings(site_id, query_embedding, top_k)`
(helper/common.py 668–716). -/
noncomputable def search_site_embeddings (records : List (String × EmbRecordStored))
    (queryEmbedding : Option (List Flt)) (topK : ℤ) : List (String × ℝ × EmbPayload) :=
  if topK ≤ 0 then []
  else
    let q := _normalize_numpy queryEmbedding
    if q = [] then []
    else if records.isEmpty then []
    else
      let valid := searchValid records q
      if valid.isEmpty then []
      else
        let limit := min topK (valid.length : ℤ)
        if limit ≤ 0 then []
        else
          (searchOrdered valid q limit.toNat).map fun i =>
            ((valid.getD i default).1, (searchScores valid q).getD i 0,
             { embedding := (valid.getD i default).2.1,
               text := (valid.getD i default).2.2.1,
               meta := (valid.getD i default).2.2.2 })

theorem normalize_numpy_length (v : Option (List Flt)) :
    (_normalize_numpy v).length = (_vector_to_numpy v).length := by
  rw [_normalize_numpy]
  split
  · rfl
  · split
    · rfl
    · exact List.length_map _ _

theorem searchValid_dim (records : List (String × EmbRecordStored)) (q : List ℝ) :
    ∀ t ∈ searchValid records q, t.2.1.length = q.length := by
  intro t ht
  rcases List.mem_filterMap.mp ht with ⟨r, _, hf⟩
  dsimp only at hf
  by_cases hg : _normalize_numpy r.2.embedding = [] ∨
      (_normalize_numpy r.2.embedding).length ≠ q.length
  · rw [if_pos hg] at hf; cases hf
  · rw [if_neg hg] at hf
    cases hf
    push_neg at hg
    exact hg.2

theorem searchOrdered_mem (valid : List (String × List ℝ × String × Meta))
    (q : List ℝ) (limit : Nat) :
    ∀ i ∈ searchOrdered valid q limit, i < valid.length := by
  intro i hi
  have := List.mem_mergeSort.mp (List.mem_of_mem_take hi)
  exact List.mem_range.mp this

theorem searchOrdered_sorted (valid : List (String × List ℝ × String × Meta))
    (q : List ℝ) (limit : Nat) :
    (searchOrdered valid q limit).Pairwise
      (fun i j => (searchScores valid q).getD j 0 ≤ (searchScores valid q).getD i 0) := by
  have hs := @List.sorted_mergeSort _
    (fun i j => decide ((searchScores valid q).getD j 0 ≤ (searchScores valid q).getD i 0))
    (fun a b c h₁ h₂ => by
      simp only [decide_eq_true_eq] at h₁ h₂ ⊢
      exact le_trans h₂ h₁)
    (fun a b => by
      simp only [Bool.or_eq_true, decide_eq_true_eq]
      exact (le_total _ _).symm)
    (List.range valid.length)
  refine ((hs.sublist (List.take_sublist _ _)).imp ?_)
  intro a b h
  simpa using h

/-- **C5.** For every stored record set, query vector and `top_k ≥ 1`,
`search_site_embeddings` returns only entries whose stored vector matches the
query vector's dimensionality (mismatches are silently excluded — the function
is total and never fails), returns at most `top_k` results, and the results
are ordered by descending similarity score. -/
theorem search_site_embeddings_spec (records : List (String × EmbRecordStored))
    (queryEmbedding : Option (List Flt)) (topK : ℤ) (h : 1 ≤ topK) :
    (search_site_embeddings records queryEmbedding topK).length ≤ topK.toNat ∧
    (∀ res ∈ search_site_embeddings records queryEmbedding topK,
      res.2.2.embedding.length = (_vector_to_numpy queryEmbedding).length) ∧
    (search_site_embeddings records queryEmbedding topK).Pairwise
      (fun a b => b.2.1 ≤ a.2.1) := by
  have hpos : ¬ topK ≤ 0 := by omega
  rw [search_site_embeddings, if_neg hpos]
  dsimp only
  by_cases hq : _normalize_numpy queryEmbedding = []
  · rw [if_pos hq]; exact ⟨by simp, by simp, by simp⟩
  rw [if_neg hq]
  by_cases hrec : records.isEmpty
  · rw [if_pos hrec]; exact ⟨by simp, by simp, by simp⟩
  rw [if_neg hrec]
  by_cases hvalid : (searchValid records (_normalize_numpy queryEmbedding)).isEmpty
  · rw [if_pos hvalid]; exact ⟨by simp, by simp, by simp⟩
  rw [if_neg hvalid]
  by_cases hlim : min topK ((searchValid records (_normalize_numpy queryEmbedding)).length : ℤ) ≤ 0
  · rw [if_pos hlim]; exact ⟨by simp, by simp, by simp⟩
  rw [if_neg hlim]
  set q := _normalize_numpy queryEmbedding with hqdef
  set valid := searchValid records q with hvdef
  set limit := min topK ((valid.length : ℕ) : ℤ) with hldef
  refine ⟨?_, ?_, ?_⟩
  · -- at most top_k results
    rw [List.length_map]
    calc (searchOrdered valid q limit.toNat).length
        ≤ limit.toNat := by
          rw [searchOrdered]
          exact (List.length_take_le _ _).trans (le_refl _)
      _ ≤ topK.toNat := Int.toNat_le_toNat (min_le_left _ _)
  · -- dimensionality of every returned payload
    intro res hres
    rcases List.mem_map.mp hres with ⟨i, hi, hres'⟩
    have hilt := searchOrdered_mem valid q limit.toNat i hi
    have hmem : valid.getD i default ∈ valid := by
      rw [List.getD_eq_getElem?_getD, List.getElem?_eq_getElem hilt]
      exact List.getElem_mem hilt
    have hdim := searchValid_dim records q _ hmem
    rw [← hres']
    dsimp only
    rw [hdim, hqdef, normalize_numpy_length]
  · -- descending similarity order
    refine List.pairwise_map.mpr ?_
    refine (searchOrdered_sorted valid q limit.toNat).imp ?_
    intro a b hab
    exact hab

/-- Witness for C5 at `top_k = 1` with one stored record. -/
theorem search_site_embeddings_spec_witness :
    (1 : ℤ) ≤ 1 ∧
    ((search_site_embeddings [("http://h/x", ⟨some [Flt.fin 1], "x", []⟩)]
        (some [Flt.fin 1]) 1).length ≤ (1 : ℤ).toNat ∧
     (∀ res ∈ search_site_embeddings [("http://h/x", ⟨some [Flt.fin 1], "x", []⟩)]
        (some [Flt.fin 1]) 1,
        res.2.2.embedding.length = (_vector_to_numpy (some [Flt.fin 1])).length) ∧
     (search_site_embeddings [("http://h/x", ⟨some [Flt.fin 1], "x", []⟩)]
        (some [Flt.fin 1]) 1).Pairwise (fun a b => b.2.1 ≤ a.2.1)) :=
  ⟨by decide,
    search_site_embeddings_spec [("http://h/x", ⟨some [Flt.fin 1], "x", []⟩)]
      (some [Flt.fin 1]) 1 (by decide)⟩

/-! ### Batch embedding (`_embed_pages`, routes/site.py 100–141)

The embedding collaborator (`_call_agent_embedding`, an HTTP call) is a
parameter `embed : String → Option (List Flt)`; `none` models the
`RuntimeError` it raises on any failure.  The site-info lookups feeding
`build_page_embedding_text` are a parameter `info : String → Option Meta`.
The embedding store is the per-site `SiteEmbedding` table as an association
list keyed by url. -/

structure StoredEmb where
  embedding : List ℝ
  text : String
  meta : Meta

/-- `build_page_embedding_text(site_id, page)` (helper/common.py 567–593):
merge the page meta with the site-info meta (page meta winning on key
conflicts, via `setdefault`), and join the url with all metadata values,
dropping empty parts.  Metadata values are strings in this model, so the
list/dict value cases of the source collapse into the scalar case. -/
def build_page_embedding_text (info : Option Meta) (page : SiteMapPageC) :
    String × Meta :=
  let pageMeta := page.meta.getD []
  let merged := pageMeta ++
    (info.getD []).filter (fun kv => ¬ pageMeta.any (fun kv2 => kv2.1 = kv.1))
  let parts := page.url :: merged.map Prod.snd
  (String.intercalate "\n" (parts.filter (· ≠ "")), merged)

/-- `store_site_embedding` (helper/common.py 635–652) backed by
`upsert_site_embedding` (crud.py 396–425): normalize the vector and
upsert it by url. -/
noncomputable def store_site_embedding (store : List (String × StoredEmb))
    (url : String) (embedding : List Flt) (text : String) (meta : Meta) :
    List (String × StoredEmb) :=
  let normalized := _normalize_to_list (some embedding)
  if store.any (fun e => e.1 = url) then
    store.map fun e => if e.1 = url then (url, ⟨normalized, text, meta⟩) else e
  else store ++ [(url, ⟨normalized, text, meta⟩)]

structure SiteMapEmbeddingResponse where
  siteId : String
  totalUrls : Nat
  embeddedUrls : Nat
  failedUrls : List String

/-- One iteration of the `for page in pages_list` loop of `_embed_pages`:
on embedding failure the url is appended to `failed` and the loop continues;
on success the vector is stored and `embedded` is incremented. -/
noncomputable def embedStep (embed : String → Option (List Flt))
    (info : String → Option Meta)
    (acc : Nat × List String × List (String × StoredEmb)) (page : SiteMapPageC) :
    Nat × List String × List (String × StoredEmb) :=
  let tm := build_page_embedding_text (info page.url) page
  match embed tm.1 with
  | none => (acc.1, acc.2.1 ++ [page.url], acc.2.2)
  | some vec => (acc.1 + 1, acc.2.1, store_site_embedding acc.2.2 page.url vec tm.1 tm.2)

/-- `_embed_pages(site_id, pages, ...)` (routes/site.py 100–141), returning the
response and the resulting embedding store.  (The human-readable `message`
field only formats the counters and is omitted.) -/
noncomputable def _embed_pages (embed : String → Option (List Flt))
    (info : String → Option Meta) (siteId : String) (pages : List SiteMapPageC)
    (totalExpected : Option Nat) (store : List (String × StoredEmb)) :
    SiteMapEmbeddingResponse × List (String × StoredEmb) :=
  let attempted := pages.length
  let total := totalExpected.getD attempted
  let final := pages.foldl (embedStep embed info) (0, [], store)
  ({ siteId := siteId, totalUrls := total, embeddedUrls := final.1,
     failedUrls := final.2.1 }, final.2.2)

theorem store_site_embedding_fst (store : List (String × StoredEmb)) (url : String)
    (v : List Flt) (t : String) (m : Meta) :
    url ∈ (store_site_embedding store url v t m).map Prod.fst ∧
    ∀ u ∈ store.map Prod.fst, u ∈ (store_site_embedding store url v t m).map Prod.fst := by
  rw [store_site_embedding]
  by_cases hany : store.any (fun e => e.1 = url)
  · rw [if_pos hany]
    have hmap : (store.map fun e =>
        if e.1 = url then (url, (⟨_normalize_to_list (some v), t, m⟩ : StoredEmb)) else e).map
          Prod.fst = store.map Prod.fst := by
      rw [List.map_map]
      refine List.map_congr_left fun e _ => ?_
      by_cases he : e.1 = url <;> simp [he]
    rw [hmap]
    constructor
    · rcases List.any_eq_true.mp hany with ⟨e, he, heq⟩
      exact List.mem_map.mpr ⟨e, he, of_decide_eq_true heq⟩
    · exact fun u hu => hu
  · rw [if_neg hany]
    rw [List.map_append]
    exact ⟨List.mem_append.mpr (Or.inr (by simp)),
      fun u hu => List.mem_append.mpr (Or.inl hu)⟩

theorem embed_fold_spec (embed : String → Option (List Flt))
    (info : String → Option Meta) (pages : List SiteMapPageC) :
    ∀ acc : Nat × List String × List (String × StoredEmb),
      (pages.foldl (embedStep embed info) acc).1 =
        acc.1 + (pages.filter fun p =>
          (embed (build_page_embedding_text (info p.url) p).1).isSome).length ∧
      (pages.foldl (embedStep embed info) acc).2.1 =
        acc.2.1 ++ (pages.filter fun p =>
          (embed (build_page_embedding_text (info p.url) p).1).isNone).map SiteMapPageC.url ∧
      (∀ u ∈ acc.2.2.map Prod.fst,
        u ∈ (pages.foldl (embedStep embed info) acc).2.2.map Prod.fst) ∧
      (∀ p ∈ pages, (embed (build_page_embedding_text (info p.url) p).1).isSome →
        p.url ∈ (pages.foldl (embedStep embed info) acc).2.2.map Prod.fst) := by
  induction pages with
  | nil => intro acc; refine ⟨by simp, by simp, fun u hu => hu, by simp⟩
  | cons p ps ih =>
    intro acc
    rw [List.foldl_cons]
    rcases hb : embed (build_page_embedding_text (info p.url) p).1 with _ | vec
    · -- failure: url recorded, store untouched
      have hstep : embedStep embed info acc p = (acc.1, acc.2.1 ++ [p.url], acc.2.2) := by
        rw [embedStep, hb]
      rcases ih (embedStep embed info acc p) with ⟨ih1, ih2, ih3, ih4⟩
      refine ⟨?_, ?_, ?_, ?_⟩
      · rw [ih1, hstep, List.filter_cons_of_neg (by simp [hb])]
      · rw [ih2, hstep, List.filter_cons_of_pos (by simp [hb])]
        simp
      · intro u hu
        exact ih3 u (by rw [hstep]; exact hu)
      · intro p' hp' hsome
        rcases List.mem_cons.mp hp' with rfl | hps
        · rw [hb] at hsome; cases hsome
        · exact ih4 p' hps hsome
    · -- success: vector stored, counter incremented
      have hstep : embedStep embed info acc p =
          (acc.1 + 1, acc.2.1,
            store_site_embedding acc.2.2 p.url vec
              (build_page_embedding_text (info p.url) p).1
              (build_page_embedding_text (info p.url) p).2) := by
        rw [embedStep, hb]
      rcases ih (embedStep embed info acc p) with ⟨ih1, ih2, ih3, ih4⟩
      refine ⟨?_, ?_, ?_, ?_⟩
      · rw [ih1, hstep, List.filter_cons_of_pos (by simp [hb])]
        simp only [List.length_cons]
        omega
      · rw [ih2, hstep, List.filter_cons_of_neg (by simp [hb])]
      · intro u hu
        refine ih3 u ?_
        rw [hstep]
        exact (store_site_embedding_fst acc.2.2 p.url vec _ _).2 u hu
      · intro p' hp' hsome
        rcases List.mem_cons.mp hp' with rfl | hps
        · refine ih3 p'.url ?_
          rw [hstep]
          exact (store_site_embedding_fst acc.2.2 p'.url vec _ _).1
        · exact ih4 p' hps hsome

/-- **C9.** A failure of the embedding collaborator on one URL never aborts
the batch: the failing URLs are exactly the reported `failedUrls` (in order),
`embeddedUrls + len(failedUrls)` equals the number of pages attempted, and
every page whose embedding succeeded — before or after any failure — has a
vector stored under its url in the resulting store. -/
theorem embed_pages_isolates_failures (embed : String → Option (List Flt))
    (info : String → Option Meta) (siteId : String) (pages : List SiteMapPageC)
    (totalExpected : Option Nat) (store : List (String × StoredEmb)) :
    ((_embed_pages embed info siteId pages totalExpected store).1.embeddedUrls +
      (_embed_pages embed info siteId pages totalExpected store).1.failedUrls.length =
      pages.length) ∧
    ((_embed_pages embed info siteId pages totalExpected store).1.failedUrls =
      (pages.filter fun p =>
        (embed (build_page_embedding_text (info p.url) p).1).isNone).map
        SiteMapPageC.url) ∧
    (∀ p ∈ pages, (embed (build_page_embedding_text (info p.url) p).1).isSome →
      p.url ∈ (_embed_pages embed info siteId pages totalExpected store).2.map
        Prod.fst) := by
  rcases embed_fold_spec embed info pages (0, [], store) with ⟨h1, h2, _, h4⟩
  refine ⟨?_, ?_, ?_⟩
  · rw [_embed_pages]
    dsimp only
    rw [h1, h2]
    simp only [Nat.zero_add, List.nil_append, List.length_map]
    have : ∀ l : List SiteMapPageC,
        (l.filter fun p => (embed (build_page_embedding_text (info p.url) p).1).isSome).length +
        (l.filter fun p => (embed (build_page_embedding_text (info p.url) p).1).isNone).length =
          l.length := by
      intro l
      induction l with
      | nil => rfl
      | cons x xs ihx =>
        rcases hx : embed (build_page_embedding_text (info x.url) x).1 with _ | v
        · rw [List.filter_cons_of_neg (by simp [hx]), List.filter_cons_of_pos (by simp [hx])]
          simp only [List.length_cons]
          omega
        · rw [List.filter_cons_of_pos (by simp [hx]), List.filter_cons_of_neg (by simp [hx])]
          simp only [List.length_cons]
          omega
    exact this pages
  · rw [_embed_pages]
    dsimp only
    rw [h2]
    simp
  · intro p hp hsome
    rw [_embed_pages]
    dsimp only
    exact h4 p hp hsome

/-- The two-page batch of the C9 scenario. -/
def pagesXY : List SiteMapPageC := [⟨"http://h/x", none⟩, ⟨"http://h/y", none⟩]

/-- A collaborator that fails exactly on the text built for `"http://h/y"`. -/
noncomputable def embedStubY : String → Option (List Flt) := fun t =>
  if t = "http://h/y" then none else some [Flt.fin 1]

/-- No stored site-info. -/
def infoStubNone : String → Option Meta := fun _ => none

/-- Witness for C9: embedding `["/x", "/y"]` where the collaborator fails on
`"/y"` still leaves `"/x"`'s vector retrievable. -/
theorem embed_pages_isolates_failures_witness :
    ((⟨"http://h/x", none⟩ : SiteMapPageC) ∈ pagesXY ∧
      (embedStubY (build_page_embedding_text (infoStubNone "http://h/x")
        ⟨"http://h/x", none⟩).1).isSome) ∧
    (⟨"http://h/x", none⟩ : SiteMapPageC).url ∈
      (_embed_pages embedStubY infoStubNone "site" pagesXY none []).2.map Prod.fst :=
  ⟨⟨by decide, by decide⟩,
    (embed_pages_isolates_failures embedStubY infoStubNone "site" pagesXY none []).2.2
      ⟨"http://h/x", none⟩ (by decide) (by decide)⟩

/-! ## URL canonicalizer (`_normalize_internal_url`, helper/common.py 188–206)

The canonicalizer is built on `urllib.parse` (CPython 3.11): `urlparse`,
`parse_qsl(keep_blank_values=True)`, `urlencode(doseq=True)` and `geturl`
(`urlunparse`).  Those stdlib routines are modelled here character by
character, with Python strings as `List Char` read as byte strings: percent
escapes decode to the raw byte (CPython additionally UTF-8-decodes the byte
run, with U+FFFD replacement for invalid sequences — the model is exact for
ASCII data and treats high bytes as Latin-1 code points).  `_checknetloc` and
`_check_bracketed_host`, which reject some non-ASCII or bracketed hosts, are
omitted (the model accepts those inputs); the mismatched-bracket `ValueError`
of `urlsplit` is kept and surfaces as `none`. -/

abbrev Chars := List Char

/-- `url.lstrip(_WHATWG_C0_CONTROL_OR_SPACE)` followed by removal of
`_UNSAFE_URL_BYTES_TO_REMOVE` (`"\t"`, `"\r"`, `"\n"`). -/
def cleanUrl (u : Chars) : Chars :=
  (u.dropWhile fun c => c.toNat ≤ 0x20).filter
    fun c => !(c == '\t' || c == '\r' || c == '\n')

/-- Membership in `scheme_chars` (ASCII letters, digits, `+` (43), `-` (45),
`.` (46)), phrased over character codes. -/
def isSchemeChar (c : Char) : Bool :=
  decide ((65 ≤ c.toNat ∧ c.toNat ≤ 90) ∨ (97 ≤ c.toNat ∧ c.toNat ≤ 122) ∨
    (48 ≤ c.toNat ∧ c.toNat ≤ 57) ∨ c.toNat = 43 ∨ c.toNat = 45 ∨ c.toNat = 46)

/-- `c.isascii() and c.isalpha()`. -/
def isAsciiAlpha (c : Char) : Bool :=
  decide ((65 ≤ c.toNat ∧ c.toNat ≤ 90) ∨ (97 ≤ c.toNat ∧ c.toNat ≤ 122))

/-- `str.lower()` on the ASCII range — only ever applied to validated scheme
characters, for which this matches Python's Unicode lowercasing. -/
def pyLower (c : Char) : Char :=
  if 65 ≤ c.toNat ∧ c.toNat ≤ 90 then Char.ofNat (c.toNat + 32) else c

/-- The scheme rule of `urlsplit`: split at the first `':'` when the prefix is
non-empty, starts with an ASCII letter and consists of scheme characters;
lowercase it.  Otherwise the url is left whole and the scheme is empty. -/
def splitScheme (url : Chars) : Chars × Chars :=
  let pre := url.takeWhile (· != ':')
  if url.contains ':' && !pre.isEmpty && isAsciiAlpha (pre.headD 'x') &&
      pre.all isSchemeChar then
    (pre.map pyLower, (url.dropWhile (· != ':')).tail)
  else ([], url)

/-- A netloc delimiter (`_splitnetloc` scans for the earliest of `/?#`). -/
def isNetlocDelim (c : Char) : Bool := c == '/' || c == '?' || c == '#'

/-- `urlsplit(url)` for the default arguments used by the canonicalizer
(`scheme=''`, `allow_fragments=True`): returns
`(scheme, netloc, path, query, fragment)`, or `none` for the
"Invalid IPv6 URL" `ValueError`. -/
def pyUrlsplit (url0 : Chars) : Option (Chars × Chars × Chars × Chars × Chars) :=
  let url1 := cleanUrl url0
  let sp := splitScheme url1
  let scheme := sp.1
  let nl :=
    if sp.2.take 2 = ['/', '/'] then
      ((sp.2.drop 2).takeWhile (fun c => !isNetlocDelim c),
       (sp.2.drop 2).dropWhile (fun c => !isNetlocDelim c))
    else ([], sp.2)
  let netloc := nl.1
  if (netloc.contains '[' && !netloc.contains ']') ||
     (netloc.contains ']' && !netloc.contains '[') then none
  else
    let fr :=
      if nl.2.contains '#' then
        (nl.2.takeWhile (· != '#'), (nl.2.dropWhile (· != '#')).tail)
      else (nl.2, [])
    let qu :=
      if fr.1.contains '?' then
        (fr.1.takeWhile (· != '?'), (fr.1.dropWhile (· != '?')).tail)
      else (fr.1, [])
    some (scheme, netloc, qu.1, qu.2, fr.2)

/-- `_splitparams(url)` — only reached when `';' in url`. -/
def splitParams (url : Chars) : Chars × Chars :=
  if url.contains '/' then
    let seg := (url.reverse.takeWhile (· != '/')).reverse
    if seg.contains ';' then
      (url.take (url.length - seg.length) ++ seg.takeWhile (· != ';'),
       (seg.dropWhile (· != ';')).tail)
    else (url, [])
  else
    (url.takeWhile (· != ';'), (url.dropWhile (· != ';')).tail)

/-- `urllib.parse.uses_params`. -/
def uses_params : List Chars :=
  [[], "ftp".toList, "hdl".toList, "prospero".toList, "http".toList, "imap".toList,
   "https".toList, "shttp".toList, "rtsp".toList, "rtsps".toList, "rtspu".toList,
   "sip".toList, "sips".toList, "mms".toList, "sftp".toList, "tel".toList]

structure UrlParts where
  scheme : Chars
  netloc : Chars
  path : Chars
  params : Chars
  query : Chars
  fragment : Chars
deriving DecidableEq, Repr

/-- `urlparse(url)`: `urlsplit` plus the params split on the last path
segment, applied only for schemes in `uses_params`. -/
def pyUrlparse (url : Chars) : Option UrlParts :=
  match pyUrlsplit url with
  | none => none
  | some (scheme, netloc, rest, query, fragment) =>
    if uses_params.contains scheme ∧ rest.contains ';' then
      let pp := splitParams rest
      some ⟨scheme, netloc, pp.1, pp.2, query, fragment⟩
    else some ⟨scheme, netloc, rest, [], query, fragment⟩

/-- `urlunsplit((scheme, netloc, url, query, fragment))`. -/
def pyUrlunsplit (scheme netloc path query fragment : Chars) : Chars :=
  let u1 :=
    if netloc ≠ [] ∨ path.take 2 = ['/', '/'] then
      ['/', '/'] ++ netloc ++
        (if path ≠ [] ∧ path.head? ≠ some '/' then '/' :: path else path)
    else path
  let u2 := if scheme ≠ [] then scheme ++ ':' :: u1 else u1
  let u3 := if query ≠ [] then u2 ++ '?' :: query else u2
  if fragment ≠ [] then u3 ++ '#' :: fragment else u3

/-- `urlunparse` / `ParseResult.geturl()`. -/
def pyUrlunparse (p : UrlParts) : Chars :=
  pyUrlunsplit p.scheme p.netloc
    (if p.params ≠ [] then p.path ++ ';' :: p.params else p.path) p.query p.fragment

/-- The value of one hex digit, as accepted by `unquote`. -/
def hexVal (c : Char) : Option Nat :=
  if 48 ≤ c.toNat ∧ c.toNat ≤ 57 then some (c.toNat - 48)
  else if 97 ≤ c.toNat ∧ c.toNat ≤ 102 then some (c.toNat - 87)
  else if 65 ≤ c.toNat ∧ c.toNat ≤ 70 then some (c.toNat - 55)
  else none

/-- The `unquote` scanner with explicit fuel (one unit per emitted character;
the input length always suffices, see `unquoteFuel_eq`). -/
def unquoteFuel : Nat → Chars → Chars
  | 0, s => s
  | _, [] => []
  | fuel + 1, c :: rest =>
    if c = '%' then
      match rest with
      | a :: b :: rest' =>
        match hexVal a, hexVal b with
        | some ha, some hb => Char.ofNat (16 * ha + hb) :: unquoteFuel fuel rest'
        | _, _ => '%' :: unquoteFuel fuel rest
      | _ => '%' :: unquoteFuel fuel rest
    else c :: unquoteFuel fuel rest

/-- `unquote(string)` at the byte level: each valid `%XX` escape becomes the
byte `XX`; an invalid escape passes the `%` through literally. -/
def unquote (s : Chars) : Chars := unquoteFuel s.length s

/-- `s.replace('+', ' ')` followed by `unquote`, as `parse_qsl` does for each
name and value. -/
def unquote_plus (s : Chars) : Chars :=
  unquote (s.map fun c => if c = '+' then ' ' else c)

/-- Membership in `_ALWAYS_SAFE` (ASCII letters, digits, `_` (95), `.` (46),
`-` (45), `~` (126)), phrased over character codes. -/
def isAlwaysSafe (c : Char) : Bool :=
  decide ((65 ≤ c.toNat ∧ c.toNat ≤ 90) ∨ (97 ≤ c.toNat ∧ c.toNat ≤ 122) ∨
    (48 ≤ c.toNat ∧ c.toNat ≤ 57) ∨ c.toNat = 95 ∨ c.toNat = 46 ∨ c.toNat = 45 ∨
    c.toNat = 126)

/-- The uppercase hex digit of a value `< 16`. -/
def hexDigit (n : Nat) : Char :=
  if n < 10 then Char.ofNat (48 + n) else Char.ofNat (55 + n)

/-- The `%XX` escape (or the character itself, when safe) that `quote`
produces for a byte. -/
def quoteChar (c : Char) : Chars :=
  if isAlwaysSafe c then [c]
  else ['%', hexDigit (c.toNat / 16), hexDigit (c.toNat % 16)]

/-- `quote_plus(s, safe='')`: spaces become `+`, safe bytes pass through,
everything else is percent-encoded. -/
def quote_plus : Chars → Chars
  | [] => []
  | c :: rest => (if c = ' ' then ['+'] else quoteChar c) ++ quote_plus rest

/-- `qs.split(separator)` (Python `str.split` on a single character:
`"".split(c) = [""]`). -/
def splitOnChar (c : Char) : Chars → List Chars
  | [] => [[]]
  | x :: xs =>
    let r := splitOnChar c xs
    if x = c then [] :: r
    else
      match r with
      | [] => [[x]]
      | h :: t => (x :: h) :: t

/-- `parse_qsl(qs, keep_blank_values=True)` (the only form the canonicalizer
uses): split on `&`, skip empty chunks, split each chunk at its first `=`
(a chunk without `=` keeps a blank value), and unquote names and values. -/
def parse_qsl (qs : Chars) : List (Chars × Chars) :=
  let chunks := if qs = [] then [] else splitOnChar '&' qs
  chunks.foldr
    (fun chunk acc =>
      if chunk = [] then acc
      else
        let nv :=
          if chunk.contains '=' then
            (chunk.takeWhile (· != '='), (chunk.dropWhile (· != '=')).tail)
          else (chunk, [])
        (unquote_plus nv.1, unquote_plus nv.2) :: acc)
    []

/-- `urlencode(query_items, doseq=True)` for string pairs: quote each name and
value with `quote_plus` and join the `name=value` chunks with `&`. -/
def urlencode : List (Chars × Chars) → Chars
  | [] => []
  | p :: rest =>
    match rest with
    | [] => quote_plus p.1 ++ '=' :: quote_plus p.2
    | _ :: _ => (quote_plus p.1 ++ '=' :: quote_plus p.2) ++ '&' :: urlencode rest

/-- `_normalize_internal_url(url)` (helper/common.py 188–206). -/
def _normalize_internal_url (url : Chars) : Option Chars :=
  match pyUrlparse url with
  | none => none
  | some p =>
    if p.scheme = [] ∨ p.netloc = [] then none
    else
      let normalizedPath := if p.path = [] then ['/'] else p.path
      let normalizedQuery := urlencode (parse_qsl p.query)
      some (pyUrlunparse ⟨p.scheme, p.netloc, normalizedPath, [], normalizedQuery, []⟩)

example : _normalize_internal_url "http://h/p?a=1&b=2".toList =
    some "http://h/p?a=1&b=2".toList := by decide

example : _normalize_internal_url "HTTP://H/a;x;y?q=%20+%2B#frag".toList =
    some "http://H/a?q=++%2B".toList := by decide

example : _normalize_internal_url "http://h".toList = some "http://h/".toList := by decide

example : _normalize_internal_url "http://h/p?=&&a".toList =
    some "http://h/p?=&a=".toList := by decide

example : _normalize_internal_url "weird+x://h/p;a?b=c".toList =
    some "weird+x://h/p;a?b=c".toList := by decide

example : _normalize_internal_url "/relative/only".toList = none := by decide

/-- **C3 counterexample.** The canonicalizer's query re-serialization is
order-preserving, not order-normalizing: `"http://h/p?a=1&b=2"` and
`"http://h/p?b=2&a=1"` have identical key/value pairs but canonicalize to two
distinct strings. -/
theorem normalize_query_order_counterexample :
    _normalize_internal_url "http://h/p?a=1&b=2".toList =
      some "http://h/p?a=1&b=2".toList ∧
    _normalize_internal_url "http://h/p?b=2&a=1".toList =
      some "http://h/p?b=2&a=1".toList ∧
    (parse_qsl "a=1&b=2".toList).Perm (parse_qsl "b=2&a=1".toList) ∧
    _normalize_internal_url "http://h/p?a=1&b=2".toList ≠
      _normalize_internal_url "http://h/p?b=2&a=1".toList :=
  ⟨by decide, by decide, by decide, by decide⟩

/-- **C3 (amended).** The canonicalizer maps two URLs to the same output
whenever they parse to the same scheme, netloc and path and their query
strings parse to the same key/value *sequence* (equal pairs in equal order —
e.g. URLs differing only in percent-encoding or blank-value spelling); mere
equality of the pair sets in a different order is not sufficient, as
`normalize_query_order_counterexample` shows. -/
theorem normalize_same_query_sequence_eq (u1 u2 : Chars) (p1 p2 : UrlParts)
    (h1 : pyUrlparse u1 = some p1) (h2 : pyUrlparse u2 = some p2)
    (hs : p1.scheme = p2.scheme) (hn : p1.netloc = p2.netloc)
    (hp : p1.path = p2.path)
    (hq : parse_qsl p1.query = parse_qsl p2.query) :
    _normalize_internal_url u1 = _normalize_internal_url u2 := by
  rw [_normalize_internal_url, h1, _normalize_internal_url, h2]
  simp only [hs, hn, hp, hq]

/-- Witness for C3 (amended): `"?a=%31"` and `"?a=1"` decode to the same pair
sequence, so both URLs canonicalize identically. -/
theorem normalize_same_query_sequence_eq_witness :
    (pyUrlparse "http://h/p?a=%31".toList =
        some ⟨"http".toList, "h".toList, "/p".toList, [], "a=%31".toList, []⟩ ∧
      pyUrlparse "http://h/p?a=1".toList =
        some ⟨"http".toList, "h".toList, "/p".toList, [], "a=1".toList, []⟩ ∧
      parse_qsl "a=%31".toList = parse_qsl "a=1".toList) ∧
    _normalize_internal_url "http://h/p?a=%31".toList =
      _normalize_internal_url "http://h/p?a=1".toList :=
  ⟨⟨by decide, by decide, by decide⟩,
    normalize_same_query_sequence_eq "http://h/p?a=%31".toList "http://h/p?a=1".toList
      ⟨"http".toList, "h".toList, "/p".toList, [], "a=%31".toList, []⟩
      ⟨"http".toList, "h".toList, "/p".toList, [], "a=1".toList, []⟩
      (by decide) (by decide) rfl rfl rfl (by decide)⟩

/-! ### Character-level lemmas -/

/-- The canonicalizer is modelled on byte strings: every character is a code
point below 256.  This is exact for ASCII input; CPython additionally passes
decoded high bytes through a UTF-8 round trip. -/
def ByteStr (s : Chars) : Prop := ∀ c ∈ s, c.toNat < 256

theorem char_eq_of_toNat {a b : Char} (h : a.toNat = b.toNat) : a = b :=
  Char.ext (UInt32.ext h)

theorem char_toNat_eq_of_eq {a b : Char} (h : a = b) : a.toNat = b.toNat := by rw [h]

theorem charToNat_ofNat (n : Nat) (h : n < 55296) : (Char.ofNat n).toNat = n := by
  have hv : n.isValidChar := Or.inl h
  simp [Char.ofNat, hv, Char.toNat, Char.ofNatAux, UInt32.toNat, UInt32.ofNatTruncate]

theorem pyLower_eq_self (c : Char) (h : ¬(65 ≤ c.toNat ∧ c.toNat ≤ 90)) :
    pyLower c = c := by
  rw [pyLower, if_neg h]

theorem pyLower_toNat_upper (c : Char) (h : 65 ≤ c.toNat ∧ c.toNat ≤ 90) :
    (pyLower c).toNat = c.toNat + 32 := by
  rw [pyLower, if_pos h, charToNat_ofNat _ (by omega)]

/-- The facts about lowercased scheme characters needed to re-parse a
canonical url: they are scheme characters, already lowercase, not `:` (58),
printable, and not among the removed bytes. -/
theorem pyLower_schemeChar (c : Char) (h : isSchemeChar c = true) :
    isSchemeChar (pyLower c) = true ∧ pyLower (pyLower c) = pyLower c ∧
    (pyLower c).toNat ≠ 58 ∧ 32 < (pyLower c).toNat ∧ (pyLower c).toNat ≠ 9 ∧
    (pyLower c).toNat ≠ 13 ∧ (pyLower c).toNat ≠ 10 := by
  have h' := of_decide_eq_true h
  by_cases hu : 65 ≤ c.toNat ∧ c.toNat ≤ 90
  · have ht := pyLower_toNat_upper c hu
    exact ⟨decide_eq_true (Or.inr (Or.inl (by omega))),
      pyLower_eq_self _ (by omega), by omega, by omega, by omega, by omega, by omega⟩
  · rw [pyLower_eq_self c hu]
    exact ⟨h, pyLower_eq_self c hu, by omega, by omega, by omega, by omega, by omega⟩

theorem pyLower_asciiAlpha (c : Char) (h : isAsciiAlpha c = true) :
    isAsciiAlpha (pyLower c) = true := by
  have h' := of_decide_eq_true h
  by_cases hu : 65 ≤ c.toNat ∧ c.toNat ≤ 90
  · exact decide_eq_true (Or.inr (by have := pyLower_toNat_upper c hu; omega))
  · rw [pyLower_eq_self c hu]; exact h

theorem hexDigit_spec (n : Nat) (h : n < 16) :
    isAlwaysSafe (hexDigit n) = true ∧ hexVal (hexDigit n) = some n := by
  by_cases h10 : n < 10
  · have ht : (hexDigit n).toNat = 48 + n := by
      rw [hexDigit, if_pos h10, charToNat_ofNat _ (by omega)]
    constructor
    · exact decide_eq_true (Or.inr (Or.inr (Or.inl (by omega))))
    · rw [hexVal, if_pos (by omega), ht]
      congr 1
      omega
  · have ht : (hexDigit n).toNat = 55 + n := by
      rw [hexDigit, if_neg h10, charToNat_ofNat _ (by omega)]
    constructor
    · exact decide_eq_true (Or.inl (by omega))
    · rw [hexVal, if_neg (by omega), if_neg (by omega), if_pos (by omega), ht]
      congr 1
      omega

theorem hexVal_lt_16 (c : Char) (v : Nat) (h : hexVal c = some v) : v < 16 := by
  rw [hexVal] at h
  split at h
  · cases h; omega
  · split at h
    · cases h; omega
    · split at h
      · cases h; omega
      · cases h

/-- Codes of characters produced by `quoteChar` on a byte: always-safe bytes
or `%` (37). -/
theorem quoteChar_chars (c : Char) (hc : c.toNat < 256) :
    ∀ d ∈ quoteChar c, isAlwaysSafe d = true ∨ d.toNat = 37 := by
  intro d hd
  rw [quoteChar] at hd
  split at hd
  · rw [List.mem_singleton] at hd
    subst hd
    exact Or.inl (by assumption)
  · rcases hd with _ | ⟨_, hd⟩
    · exact Or.inr rfl
    rcases hd with _ | ⟨_, hd⟩
    · exact Or.inl (hexDigit_spec (c.toNat / 16) (by omega)).1
    rcases hd with _ | ⟨_, hd⟩
    · exact Or.inl (hexDigit_spec (c.toNat % 16) (by omega)).1
    · cases hd

/-- Codes of characters produced by `quote_plus` on a byte string: always-safe
bytes, `+` (43) or `%` (37). -/
theorem quote_plus_chars (s : Chars) (hb : ByteStr s) :
    ∀ d ∈ quote_plus s, isAlwaysSafe d = true ∨ d.toNat = 43 ∨ d.toNat = 37 := by
  induction s with
  | nil => intro d hd; cases hd
  | cons c rest ih =>
    intro d hd
    rw [quote_plus] at hd
    rcases List.mem_append.mp hd with hd | hd
    · split at hd
      · rw [List.mem_singleton] at hd
        subst hd
        exact Or.inr (Or.inl rfl)
      · rcases quoteChar_chars c (hb c (List.mem_cons_self c rest)) d hd with h | h
        · exact Or.inl h
        · exact Or.inr (Or.inr h)
    · exact ih (fun x hx => hb x (List.mem_cons_of_mem c hx)) d hd

/-- Codes of characters produced by `urlencode` on byte pairs: additionally
`=` (61) and `&` (38). -/
theorem urlencode_chars (l : List (Chars × Chars))
    (hb : ∀ p ∈ l, ByteStr p.1 ∧ ByteStr p.2) :
    ∀ d ∈ urlencode l, isAlwaysSafe d = true ∨ d.toNat = 43 ∨ d.toNat = 37 ∨
      d.toNat = 61 ∨ d.toNat = 38 := by
  induction l with
  | nil => intro d hd; cases hd
  | cons p rest ih =>
    intro d hd
    have hp := hb p (List.mem_cons_self p rest)
    have hchunk : ∀ d ∈ quote_plus p.1 ++ '=' :: quote_plus p.2,
        isAlwaysSafe d = true ∨ d.toNat = 43 ∨ d.toNat = 37 ∨ d.toNat = 61 ∨
          d.toNat = 38 := by
      intro d hd
      rcases List.mem_append.mp hd with hd | hd
      · rcases quote_plus_chars p.1 hp.1 d hd with h | h | h
        · exact Or.inl h
        · exact Or.inr (Or.inl h)
        · exact Or.inr (Or.inr (Or.inl h))
      · rcases List.mem_cons.mp hd with rfl | hd
        · exact Or.inr (Or.inr (Or.inr (Or.inl rfl)))
        · rcases quote_plus_chars p.2 hp.2 d hd with h | h | h
          · exact Or.inl h
          · exact Or.inr (Or.inl h)
          · exact Or.inr (Or.inr (Or.inl h))
    match rest, hd with
    | [], hd =>
      exact hchunk d (by simpa [urlencode] using hd)
    | r :: rs, hd =>
      have hd' : d ∈ (quote_plus p.1 ++ '=' :: quote_plus p.2) ++
          '&' :: urlencode (r :: rs) := hd
      rcases List.mem_append.mp hd' with hd2 | hd2
      · exact hchunk d hd2
      · rcases List.mem_cons.mp hd2 with rfl | hd2
        · exact Or.inr (Or.inr (Or.inr (Or.inr rfl)))
        · exact ih (fun x hx => hb x (List.mem_cons_of_mem p hx)) d hd2

/-- The negative character facts needed to re-parse a canonical query string:
no `#` (35), `?` (63), `/` (47), `&`-free is not needed, and none of the
removed or stripped bytes. -/
theorem urlencode_char_facts (l : List (Chars × Chars))
    (hb : ∀ p ∈ l, ByteStr p.1 ∧ ByteStr p.2) :
    ∀ d ∈ urlencode l, d.toNat ≠ 35 ∧ d.toNat ≠ 63 ∧ d.toNat ≠ 9 ∧
      d.toNat ≠ 13 ∧ d.toNat ≠ 10 ∧ 32 < d.toNat := by
  intro d hd
  rcases urlencode_chars l hb d hd with h | h | h | h | h
  · have h' := of_decide_eq_true h
    exact ⟨by omega, by omega, by omega, by omega, by omega, by omega⟩
  all_goals exact ⟨by omega, by omega, by omega, by omega, by omega, by omega⟩

/-! ### Splitting lemmas -/

theorem takeWhile_append_cons (p : Char → Bool) (l₁ : Chars) (a : Char) (l₂ : Chars)
    (h1 : ∀ x ∈ l₁, p x = true) (h2 : p a = false) :
    List.takeWhile p (l₁ ++ a :: l₂) = l₁ := by
  induction l₁ with
  | nil => simp [List.takeWhile_cons, h2]
  | cons x xs ih =>
    rw [List.cons_append, List.takeWhile_cons, if_pos (h1 x (List.mem_cons_self x xs)),
      ih (fun y hy => h1 y (List.mem_cons_of_mem x hy))]

theorem dropWhile_append_cons (p : Char → Bool) (l₁ : Chars) (a : Char) (l₂ : Chars)
    (h1 : ∀ x ∈ l₁, p x = true) (h2 : p a = false) :
    List.dropWhile p (l₁ ++ a :: l₂) = a :: l₂ := by
  induction l₁ with
  | nil => simp [List.dropWhile_cons, h2]
  | cons x xs ih =>
    rw [List.cons_append, List.dropWhile_cons, if_pos (h1 x (List.mem_cons_self x xs)),
      ih (fun y hy => h1 y (List.mem_cons_of_mem x hy))]

theorem contains_eq_false_of_not_mem {l : Chars} {a : Char} (h : a ∉ l) :
    l.contains a = false := by
  rcases hc : l.contains a with _ | _
  · rfl
  · exact absurd (List.elem_iff.mp hc) h

theorem contains_eq_true_of_mem {l : Chars} {a : Char} (h : a ∈ l) :
    l.contains a = true := List.elem_iff.mpr h

theorem dropWhile_head_false (p : Char → Bool) (l : Chars) (a : Char) (t : Chars)
    (h : List.dropWhile p l = a :: t) : p a = false := by
  induction l with
  | nil => cases h
  | cons x xs ih =>
    rw [List.dropWhile_cons] at h
    split at h
    · exact ih h
    · cases h
      rename_i hx
      simpa using hx

theorem splitOnChar_no_sep (c : Char) (l : Chars) (h : ∀ x ∈ l, x ≠ c) :
    splitOnChar c l = [l] := by
  induction l with
  | nil => rfl
  | cons x xs ih =>
    rw [splitOnChar]
    simp only [if_neg (h x (List.mem_cons_self x xs)),
      ih (fun y hy => h y (List.mem_cons_of_mem x hy))]

theorem splitOnChar_append (c : Char) (l₁ l₂ : Chars) (h : ∀ x ∈ l₁, x ≠ c) :
    splitOnChar c (l₁ ++ c :: l₂) = l₁ :: splitOnChar c l₂ := by
  induction l₁ with
  | nil => rw [List.nil_append, splitOnChar, if_pos rfl]
  | cons x xs ih =>
    rw [List.cons_append, splitOnChar]
    simp only [if_neg (h x (List.mem_cons_self x xs)),
      ih (fun y hy => h y (List.mem_cons_of_mem x hy))]

theorem splitOnChar_ne_nil (c : Char) (l : Chars) : splitOnChar c l ≠ [] := by
  cases l with
  | nil => simp [splitOnChar]
  | cons x xs =>
    rw [splitOnChar]
    split
    · simp
    · split <;> simp

theorem splitOnChar_mem (c : Char) (l : Chars) :
    ∀ ch ∈ splitOnChar c l, ∀ x ∈ ch, x ∈ l := by
  induction l with
  | nil => intro ch hch x hx; rw [splitOnChar, List.mem_singleton] at hch; subst hch; cases hx
  | cons y ys ih =>
    intro ch hch x hx
    rw [splitOnChar] at hch
    split at hch
    · rcases List.mem_cons.mp hch with rfl | hch
      · cases hx
      · exact List.mem_cons_of_mem y (ih ch hch x hx)
    · rcases hr : splitOnChar c ys with _ | ⟨h0, t0⟩
      · exact absurd hr (splitOnChar_ne_nil c ys)
      · rw [hr] at hch
        rcases List.mem_cons.mp hch with rfl | hch
        · rcases List.mem_cons.mp hx with rfl | hx
          · exact List.mem_cons_self x ys
          · exact List.mem_cons_of_mem y
              (ih h0 (hr ▸ List.mem_cons_self h0 t0) x hx)
        · exact List.mem_cons_of_mem y (ih ch (hr ▸ List.mem_cons_of_mem h0 hch) x hx)

/-! ### Quote/unquote round trip -/

theorem isAlwaysSafe_facts (c : Char) (h : isAlwaysSafe c = true) :
    c.toNat ≠ 43 ∧ c.toNat ≠ 37 ∧ c.toNat ≠ 61 ∧ c.toNat ≠ 38 := by
  have h' := of_decide_eq_true h
  exact ⟨by omega, by omega, by omega, by omega⟩

theorem unquoteFuel_cons_ne (f : Nat) (c : Char) (l : Chars) (h : ¬c = '%') :
    unquoteFuel (f + 1) (c :: l) = c :: unquoteFuel f l := by
  cases l with
  | nil =>
    show (if c = '%' then '%' :: unquoteFuel f [] else c :: unquoteFuel f []) =
      c :: unquoteFuel f []
    rw [if_neg h]
  | cons a t =>
    cases t with
    | nil =>
      show (if c = '%' then '%' :: unquoteFuel f [a] else c :: unquoteFuel f [a]) =
        c :: unquoteFuel f [a]
      rw [if_neg h]
    | cons b t' =>
      rw [unquoteFuel.eq_3, if_neg h]

theorem unquoteFuel_pct (f : Nat) (a b : Char) (l : Chars) (va vb : Nat)
    (ha : hexVal a = some va) (hb : hexVal b = some vb) :
    unquoteFuel (f + 1) ('%' :: a :: b :: l) =
      Char.ofNat (16 * va + vb) :: unquoteFuel f l := by
  rw [unquoteFuel.eq_3, if_pos rfl]
  simp only [ha, hb]

/-- After the `+ → space` substitution of `unquote_plus`, the encoding of one
byte is unchanged unless it was a space, which decodes back to a space. -/
theorem unquoteFuel_encoded (s : Chars) (hb : ByteStr s) :
    ∀ fuel, ((quote_plus s).map (fun c => if c = '+' then ' ' else c)).length ≤ fuel →
      unquoteFuel fuel ((quote_plus s).map (fun c => if c = '+' then ' ' else c)) = s := by
  induction s with
  | nil =>
    intro fuel _
    rw [quote_plus, List.map_nil]
    cases fuel <;> rfl
  | cons c rest ih =>
    intro fuel hf
    have hbrest : ByteStr rest := fun x hx => hb x (List.mem_cons_of_mem c hx)
    have hbc : c.toNat < 256 := hb c (List.mem_cons_self c rest)
    rw [quote_plus] at hf ⊢
    by_cases hsp : c = ' '
    · subst hsp
      rw [if_pos rfl, List.map_append, List.map_cons, List.map_nil, if_pos rfl] at hf ⊢
      cases fuel with
      | zero => simp at hf
      | succ f =>
        rw [List.singleton_append, unquoteFuel_cons_ne f ' ' _ (by decide),
          ih hbrest f (by simpa using hf)]
    · rw [if_neg hsp, List.map_append] at hf ⊢
      by_cases hsafe : isAlwaysSafe c = true
      · rw [quoteChar, if_pos hsafe, List.map_cons, List.map_nil] at hf ⊢
        have hnplus : ¬c = '+' := fun he =>
          absurd ((char_toNat_eq_of_eq he).trans rfl) (isAlwaysSafe_facts c hsafe).1
        rw [if_neg hnplus] at hf ⊢
        cases fuel with
        | zero => simp at hf
        | succ f =>
          have hnpct : ¬c = '%' := fun he =>
            absurd ((char_toNat_eq_of_eq he).trans rfl) (isAlwaysSafe_facts c hsafe).2.1
          rw [List.singleton_append, unquoteFuel_cons_ne f c _ hnpct,
            ih hbrest f (by simpa using hf)]
      · rw [quoteChar, if_neg hsafe, List.map_cons, List.map_cons, List.map_cons,
          List.map_nil] at hf ⊢
        have hh1 := hexDigit_spec (c.toNat / 16) (by omega)
        have hh2 := hexDigit_spec (c.toNat % 16) (by omega)
        have hp1 : ¬(hexDigit (c.toNat / 16)) = '+' := fun he =>
          absurd ((char_toNat_eq_of_eq he).trans rfl) (isAlwaysSafe_facts _ hh1.1).1
        have hp2 : ¬(hexDigit (c.toNat % 16)) = '+' := fun he =>
          absurd ((char_toNat_eq_of_eq he).trans rfl) (isAlwaysSafe_facts _ hh2.1).1
        rw [if_neg (by decide : ¬('%' : Char) = '+'), if_neg hp1, if_neg hp2] at hf ⊢
        cases fuel with
        | zero => simp at hf
        | succ f =>
          rw [List.cons_append, List.cons_append, List.cons_append, List.nil_append,
            unquoteFuel_pct f _ _ _ _ _ hh1.2 hh2.2, Nat.div_add_mod, Char.ofNat_toNat,
            ih hbrest f (by
              simp only [List.length_cons, List.length_append, List.length_map] at hf ⊢
              omega)]

theorem unquote_plus_quote_plus (s : Chars) (hb : ByteStr s) :
    unquote_plus (quote_plus s) = s := by
  rw [unquote_plus, unquote]
  exact unquoteFuel_encoded s hb _ (le_refl _)

/-! ### `parse_qsl ∘ urlencode` round trip -/

theorem urlencode_cons_cons (p r : Chars × Chars) (rs : List (Chars × Chars)) :
    urlencode (p :: r :: rs) =
      (quote_plus p.1 ++ '=' :: quote_plus p.2) ++ '&' :: urlencode (r :: rs) := rfl

theorem urlencode_singleton (p : Chars × Chars) :
    urlencode [p] = quote_plus p.1 ++ '=' :: quote_plus p.2 := rfl

theorem chunk_no_amp (p : Chars × Chars) (hb1 : ByteStr p.1) (hb2 : ByteStr p.2) :
    ∀ x ∈ quote_plus p.1 ++ '=' :: quote_plus p.2, x ≠ '&' := by
  intro x hx he
  have h38 : x.toNat = 38 := (char_toNat_eq_of_eq he).trans rfl
  rcases List.mem_append.mp hx with hx | hx
  · rcases quote_plus_chars p.1 hb1 x hx with h | h | h
    · have h' := of_decide_eq_true h
      omega
    · omega
    · omega
  · rcases List.mem_cons.mp hx with rfl | hx
    · exact absurd h38 (by decide)
    · rcases quote_plus_chars p.2 hb2 x hx with h | h | h
      · have h' := of_decide_eq_true h
        omega
      · omega
      · omega

theorem splitOnChar_urlencode (l : List (Chars × Chars))
    (hb : ∀ p ∈ l, ByteStr p.1 ∧ ByteStr p.2) (hl : l ≠ []) :
    splitOnChar '&' (urlencode l) =
      l.map (fun p => quote_plus p.1 ++ '=' :: quote_plus p.2) := by
  induction l with
  | nil => exact absurd rfl hl
  | cons p rest ih =>
    have hp := hb p (List.mem_cons_self p rest)
    cases rest with
    | nil =>
      rw [urlencode_singleton, splitOnChar_no_sep '&' _ (chunk_no_amp p hp.1 hp.2),
        List.map_cons, List.map_nil]
    | cons r rs =>
      rw [urlencode_cons_cons, splitOnChar_append '&' _ _ (chunk_no_amp p hp.1 hp.2),
        ih (fun x hx => hb x (List.mem_cons_of_mem p hx)) (by simp)]
      simp

theorem chunk_split (k v : Chars) (hbk : ByteStr k) :
    (quote_plus k ++ '=' :: quote_plus v).takeWhile (· != '=') = quote_plus k ∧
    ((quote_plus k ++ '=' :: quote_plus v).dropWhile (· != '=')).tail = quote_plus v := by
  have hkeq : ∀ x ∈ quote_plus k, (x != '=') = true := by
    intro x hx
    refine bne_iff_ne.mpr fun he => ?_
    have h61 : x.toNat = 61 := (char_toNat_eq_of_eq he).trans rfl
    rcases quote_plus_chars k hbk x hx with h | h | h
    · have h' := of_decide_eq_true h
      omega
    · omega
    · omega
  have heq : (('=' : Char) != '=') = false := by decide
  exact ⟨takeWhile_append_cons _ _ _ _ hkeq heq,
    by rw [dropWhile_append_cons _ _ _ _ hkeq heq, List.tail_cons]⟩

theorem parse_qsl_fold (l : List (Chars × Chars))
    (hb : ∀ p ∈ l, ByteStr p.1 ∧ ByteStr p.2) :
    (l.map (fun p => quote_plus p.1 ++ '=' :: quote_plus p.2)).foldr
      (fun chunk acc =>
        if chunk = [] then acc
        else
          let nv :=
            if chunk.contains '=' then
              (chunk.takeWhile (· != '='), (chunk.dropWhile (· != '=')).tail)
            else (chunk, [])
          (unquote_plus nv.1, unquote_plus nv.2) :: acc) [] = l := by
  induction l with
  | nil => rfl
  | cons q qs ih =>
    have hq := hb q (List.mem_cons_self q qs)
    rw [List.map_cons, List.foldr_cons, ih (fun x hx => hb x (List.mem_cons_of_mem q hx))]
    have hchq : ¬(quote_plus q.1 ++ '=' :: quote_plus q.2) = [] := by simp
    rw [if_neg hchq]
    have hcontains : (quote_plus q.1 ++ '=' :: quote_plus q.2).contains '=' = true :=
      contains_eq_true_of_mem (List.mem_append.mpr (Or.inr (List.mem_cons_self _ _)))
    simp only [if_pos hcontains, (chunk_split q.1 q.2 hq.1).1, (chunk_split q.1 q.2 hq.1).2,
      unquote_plus_quote_plus q.1 hq.1, unquote_plus_quote_plus q.2 hq.2]

theorem parse_qsl_urlencode (l : List (Chars × Chars))
    (hb : ∀ p ∈ l, ByteStr p.1 ∧ ByteStr p.2) :
    parse_qsl (urlencode l) = l := by
  cases l with
  | nil => rfl
  | cons p rest =>
    have hne : ¬urlencode (p :: rest) = [] := by
      cases rest with
      | nil => rw [urlencode_singleton]; simp
      | cons r rs => rw [urlencode_cons_cons]; simp
    rw [parse_qsl]
    simp only [if_neg hne]
    rw [splitOnChar_urlencode (p :: rest) hb (by simp)]
    exact parse_qsl_fold (p :: rest) hb

/-! ### Byte propagation -/

theorem unquoteFuel_pct_short (f : Nat) (rest : Chars)
    (h : rest = [] ∨ ∃ a, rest = [a]) :
    unquoteFuel (f + 1) ('%' :: rest) = '%' :: unquoteFuel f rest := by
  rcases h with rfl | ⟨a, rfl⟩
  · show (if ('%' : Char) = '%' then '%' :: unquoteFuel f [] else '%' :: unquoteFuel f []) =
      '%' :: unquoteFuel f []
    rw [if_pos rfl]
  · show (if ('%' : Char) = '%' then '%' :: unquoteFuel f [a] else '%' :: unquoteFuel f [a]) =
      '%' :: unquoteFuel f [a]
    rw [if_pos rfl]

theorem unquoteFuel_pct_invalid (f : Nat) (a b : Char) (l : Chars)
    (h : hexVal a = none ∨ hexVal b = none) :
    unquoteFuel (f + 1) ('%' :: a :: b :: l) = '%' :: unquoteFuel f (a :: b :: l) := by
  rw [unquoteFuel.eq_3, if_pos rfl]
  rcases hha : hexVal a with _ | va
  · rfl
  · rcases hhb : hexVal b with _ | vb
    · simp only [hhb]
    · rcases h with h | h
      · exact absurd hha (h ▸ by simp)
      · exact absurd hhb (h ▸ by simp)

theorem unquoteFuel_bytes (fuel : Nat) :
    ∀ s : Chars, ByteStr s → ByteStr (unquoteFuel fuel s) := by
  induction fuel with
  | zero => intro s hs; rw [unquoteFuel.eq_1]; exact hs
  | succ f ih =>
    intro s hs
    cases s with
    | nil => intro c hc; cases hc
    | cons c rest =>
      have hbr : ByteStr rest := fun x hx => hs x (List.mem_cons_of_mem c hx)
      by_cases hpc : c = '%'
      · subst hpc
        match rest, hbr with
        | [], hbr =>
          rw [unquoteFuel_pct_short f [] (Or.inl rfl)]
          intro x hx
          rcases List.mem_cons.mp hx with rfl | hx
          · exact by decide
          · exact ih [] (fun y hy => absurd hy (List.not_mem_nil y)) x hx
        | [a], hbr =>
          rw [unquoteFuel_pct_short f [a] (Or.inr ⟨a, rfl⟩)]
          intro x hx
          rcases List.mem_cons.mp hx with rfl | hx
          · exact by decide
          · exact ih [a] hbr x hx
        | a :: b :: l, hbr =>
          rcases hha : hexVal a with _ | va
          · rw [unquoteFuel_pct_invalid f a b l (Or.inl hha)]
            intro x hx
            rcases List.mem_cons.mp hx with rfl | hx
            · exact by decide
            · exact ih _ hbr x hx
          · rcases hhb : hexVal b with _ | vb
            · rw [unquoteFuel_pct_invalid f a b l (Or.inr hhb)]
              intro x hx
              rcases List.mem_cons.mp hx with rfl | hx
              · exact by decide
              · exact ih _ hbr x hx
            · rw [unquoteFuel_pct f a b l va vb hha hhb]
              intro x hx
              rcases List.mem_cons.mp hx with rfl | hx
              · have hva := hexVal_lt_16 a va hha
                have hvb := hexVal_lt_16 b vb hhb
                rw [charToNat_ofNat _ (by omega)]
                omega
              · exact ih l (fun y hy => hbr y (by simp [hy])) x hx
      · rw [unquoteFuel_cons_ne f c rest hpc]
        intro x hx
        rcases List.mem_cons.mp hx with rfl | hx
        · exact hs x (List.mem_cons_self x rest)
        · exact ih rest hbr x hx

theorem unquote_plus_bytes (s : Chars) (h : ByteStr s) : ByteStr (unquote_plus s) := by
  rw [unquote_plus, unquote]
  refine unquoteFuel_bytes _ _ ?_
  intro c hc
  rcases List.mem_map.mp hc with ⟨x, hx, rfl⟩
  by_cases hx' : x = '+'
  · rw [if_pos hx']; exact by decide
  · rw [if_neg hx']; exact h x hx

theorem parse_qsl_fold_bytes (chunks : List Chars) (hc : ∀ ch ∈ chunks, ByteStr ch) :
    ∀ p ∈ chunks.foldr
      (fun chunk acc =>
        if chunk = [] then acc
        else
          let nv :=
            if chunk.contains '=' then
              (chunk.takeWhile (· != '='), (chunk.dropWhile (· != '=')).tail)
            else (chunk, [])
          (unquote_plus nv.1, unquote_plus nv.2) :: acc) [],
      ByteStr p.1 ∧ ByteStr p.2 := by
  induction chunks with
  | nil => intro p hp; cases hp
  | cons ch rest ih =>
    intro p hp
    rw [List.foldr_cons] at hp
    have hch := hc ch (List.mem_cons_self ch rest)
    have hrest := fun x hx => hc x (List.mem_cons_of_mem ch hx)
    by_cases hemp : ch = []
    · rw [if_pos hemp] at hp
      exact ih hrest p hp
    · rw [if_neg hemp] at hp
      rcases List.mem_cons.mp hp with rfl | hp
      · by_cases hct : ch.contains '=' = true
        · simp only [if_pos hct]
          constructor
          · exact unquote_plus_bytes _ fun x hx =>
              hch x ((List.takeWhile_sublist _).subset hx)
          · exact unquote_plus_bytes _ fun x hx =>
              hch x ((List.dropWhile_sublist _).subset (List.tail_subset _ hx))
        · simp only [if_neg hct]
          exact ⟨unquote_plus_bytes _ hch, unquote_plus_bytes _ (by intro x hx; cases hx)⟩
      · exact ih hrest p hp

theorem parse_qsl_bytes (qs : Chars) (h : ByteStr qs) :
    ∀ p ∈ parse_qsl qs, ByteStr p.1 ∧ ByteStr p.2 := by
  rw [parse_qsl]
  by_cases hq : qs = []
  · rw [if_pos hq]
    intro p hp
    cases hp
  · rw [if_neg hq]
    exact parse_qsl_fold_bytes _ fun ch hch x hx => h x (splitOnChar_mem '&' qs ch hch x hx)

/-! ### Params-split lemmas -/

/-- Decompose a list containing `/` around its last slash. -/
theorem lastSlash_decomp (l : Chars) (h : '/' ∈ l) :
    ∃ pre0 seg, l = (pre0 ++ ['/']) ++ seg ∧
      (l.reverse.takeWhile (· != '/')).reverse = seg ∧
      (∀ x ∈ seg, (x != '/') = true) ∧
      l.take (l.length - seg.length) = pre0 ++ ['/'] := by
  have hrl : '/' ∈ l.reverse := List.mem_reverse.mpr h
  rcases hdr : l.reverse.dropWhile (· != '/') with _ | ⟨d, dt⟩
  · exfalso
    have hsplit := List.takeWhile_append_dropWhile (· != '/') l.reverse
    rw [hdr, List.append_nil] at hsplit
    have hmem : '/' ∈ l.reverse.takeWhile (· != '/') := by rw [hsplit]; exact hrl
    have := List.mem_takeWhile_imp hmem
    simp at this
  · have hd : d = '/' :=
      bne_eq_false_iff_eq.mp (dropWhile_head_false (· != '/') l.reverse d dt hdr)
    subst hd
    have hsplit := List.takeWhile_append_dropWhile (· != '/') l.reverse
    rw [hdr] at hsplit
    have hl : l = (dt.reverse ++ ['/']) ++ (l.reverse.takeWhile (· != '/')).reverse := by
      calc l = l.reverse.reverse := (List.reverse_reverse l).symm
        _ = (l.reverse.takeWhile (· != '/') ++ '/' :: dt).reverse := by rw [hsplit]
        _ = (dt.reverse ++ ['/']) ++ (l.reverse.takeWhile (· != '/')).reverse := by
            rw [List.reverse_append, List.reverse_cons]
    refine ⟨dt.reverse, (l.reverse.takeWhile (· != '/')).reverse, hl, rfl, ?_, ?_⟩
    · intro x hx
      have hx' : x ∈ List.takeWhile (· != '/') l.reverse := List.mem_reverse.mp hx
      exact List.mem_takeWhile_imp (p := fun y => y != '/') hx'
    · have hlen : l.length =
          (dt.reverse ++ ['/']).length + (l.reverse.takeWhile (· != '/')).reverse.length := by
        conv_lhs => rw [hl]
        rw [List.length_append]
      rw [show l.length - (l.reverse.takeWhile (· != '/')).reverse.length =
        (dt.reverse ++ ['/']).length from by omega]
      conv_lhs => rw [hl]
      exact List.take_left _ _

/-- The properties of `_splitparams` needed for idempotence: the split path
keeps the original head, its characters are a subset of the input, and
splitting it a second time changes nothing. -/
theorem splitParams_spec (l : Chars) (hsl : '/' ∈ l) :
    (splitParams l).1.head? = l.head? ∧
    (∀ x ∈ (splitParams l).1, x ∈ l) ∧
    ((splitParams l).1.contains ';' = true →
      splitParams (splitParams l).1 = ((splitParams l).1, [])) := by
  have hcl : l.contains '/' = true := contains_eq_true_of_mem hsl
  rcases lastSlash_decomp l hsl with ⟨pre0, seg, hdecomp, hseg, hsegslash, htake⟩
  by_cases hsc : seg.contains ';' = true
  · have hout : splitParams l =
        ((pre0 ++ ['/']) ++ seg.takeWhile (· != ';'), (seg.dropWhile (· != ';')).tail) := by
      simp only [splitParams]
      rw [if_pos hcl]
      simp only [hseg]
      rw [if_pos hsc]
      simp only [htake]
    rw [hout]
    have hne : pre0 ++ ['/'] ≠ [] := by simp
    refine ⟨?_, ?_, ?_⟩
    · rw [List.head?_append_of_ne_nil (pre0 ++ ['/']) hne]
      conv_rhs => rw [hdecomp, List.head?_append_of_ne_nil (pre0 ++ ['/']) hne]
    · intro x hx
      rw [hdecomp]
      rcases List.mem_append.mp hx with hx | hx
      · exact List.mem_append.mpr (Or.inl hx)
      · exact List.mem_append.mpr (Or.inr ((List.takeWhile_sublist _).subset hx))
    · intro _
      have hslashout : '/' ∈ (pre0 ++ ['/']) ++ seg.takeWhile (· != ';') :=
        List.mem_append.mpr (Or.inl (List.mem_append.mpr (Or.inr (by simp))))
      have hrev : (((pre0 ++ ['/']) ++ seg.takeWhile (· != ';')).reverse.takeWhile
          (· != '/')).reverse = seg.takeWhile (· != ';') := by
        rw [List.reverse_append, List.reverse_append, List.reverse_singleton,
          List.singleton_append, takeWhile_append_cons _ _ _ _
            (fun x hx => hsegslash x ((List.takeWhile_sublist _).subset
              (List.mem_reverse.mp hx)))
            (by decide), List.reverse_reverse]
      have hnosemi : (seg.takeWhile (· != ';')).contains ';' = false := by
        refine contains_eq_false_of_not_mem fun hm => ?_
        have hp := List.mem_takeWhile_imp (p := fun y => y != ';') hm
        simp at hp
      simp only [splitParams]
      rw [if_pos (contains_eq_true_of_mem hslashout)]
      simp only [hrev]
      rw [if_neg (show ¬((seg.takeWhile (· != ';')).contains ';' = true) from by
        rw [hnosemi]; simp)]
  · have hout : splitParams l = (l, []) := by
      simp only [splitParams]
      rw [if_pos hcl]
      simp only [hseg]
      rw [if_neg hsc]
    rw [hout]
    exact ⟨rfl, fun x hx => hx, fun hcontains => hout⟩

/-! ### Re-parsing a canonical url -/

theorem stripPred_false (c : Char) (h : 32 < c.toNat) :
    decide (c.toNat ≤ 0x20) = false := by
  simp only [decide_eq_false_iff_not]
  omega

theorem cleanChar_pred (c : Char) (h9 : c.toNat ≠ 9) (h13 : c.toNat ≠ 13)
    (h10 : c.toNat ≠ 10) : (!(c == '\t' || c == '\r' || c == '\n')) = true := by
  have t1 : (c == '\t') = false :=
    beq_eq_false_iff_ne.mpr fun he => h9 ((char_toNat_eq_of_eq he).trans rfl)
  have t2 : (c == '\r') = false :=
    beq_eq_false_iff_ne.mpr fun he => h13 ((char_toNat_eq_of_eq he).trans rfl)
  have t3 : (c == '\n') = false :=
    beq_eq_false_iff_ne.mpr fun he => h10 ((char_toNat_eq_of_eq he).trans rfl)
  rw [t1, t2, t3]
  rfl

theorem splitScheme_reconstruct (scheme rest : Chars) (hne : scheme ≠ [])
    (hhead : isAsciiAlpha (scheme.headD 'x') = true)
    (hall : ∀ c ∈ scheme, isSchemeChar c = true)
    (hlower : ∀ c ∈ scheme, pyLower c = c)
    (hnc : ∀ c ∈ scheme, (c != ':') = true) :
    splitScheme (scheme ++ ':' :: rest) = (scheme, rest) := by
  have htw : (scheme ++ ':' :: rest).takeWhile (· != ':') = scheme :=
    takeWhile_append_cons _ _ _ _ hnc (by decide)
  have hdw : (scheme ++ ':' :: rest).dropWhile (· != ':') = ':' :: rest :=
    dropWhile_append_cons _ _ _ _ hnc (by decide)
  simp only [splitScheme, htw, hdw]
  have h1 : (scheme ++ ':' :: rest).contains ':' = true :=
    contains_eq_true_of_mem (List.mem_append.mpr (Or.inr (List.mem_cons_self _ _)))
  have h2 : scheme.isEmpty = false := by
    cases scheme with
    | nil => exact absurd rfl hne
    | cons a b => rfl
  rw [if_pos (by rw [h1, h2, hhead, List.all_eq_true.mpr hall]; rfl)]
  rw [List.tail_cons, (List.map_congr_left hlower).trans (List.map_id scheme)]

theorem pyUrlsplit_canon_output (scheme netloc path q : Chars)
    (hsne : scheme ≠ [])
    (hshead : isAsciiAlpha (scheme.headD 'x') = true)
    (hsfacts : ∀ c ∈ scheme, isSchemeChar c = true ∧ pyLower c = c ∧ c.toNat ≠ 58 ∧
      32 < c.toNat ∧ c.toNat ≠ 9 ∧ c.toNat ≠ 13 ∧ c.toNat ≠ 10)
    (hnne : netloc ≠ [])
    (hnfacts : ∀ c ∈ netloc, isNetlocDelim c = false ∧ c.toNat ≠ 9 ∧ c.toNat ≠ 13 ∧
      c.toNat ≠ 10)
    (hbrack : ((netloc.contains '[' && !netloc.contains ']') ||
      (netloc.contains ']' && !netloc.contains '[')) = false)
    (hphead : path.head? = some '/')
    (hpfacts : ∀ c ∈ path, (c != '#') = true ∧ (c != '?') = true ∧ c.toNat ≠ 9 ∧
      c.toNat ≠ 13 ∧ c.toNat ≠ 10)
    (hqfacts : ∀ c ∈ q, c.toNat ≠ 35 ∧ c.toNat ≠ 9 ∧ c.toNat ≠ 13 ∧ c.toNat ≠ 10) :
    pyUrlsplit (scheme ++ ':' :: '/' :: '/' ::
        (netloc ++ (path ++ (if q = [] then [] else '?' :: q)))) =
      some (scheme, netloc, path, q, []) := by
  obtain ⟨pt, rfl⟩ : ∃ pt, path = '/' :: pt := by
    cases path with
    | nil => cases hphead
    | cons a t => exact ⟨t, by rw [Option.some_inj.mp hphead]⟩
  have hoptq : ∀ c ∈ (if q = [] then [] else '?' :: q), c = '?' ∨ c ∈ q := by
    intro c hc
    by_cases hq : q = []
    · rw [if_pos hq] at hc; cases hc
    · rw [if_neg hq] at hc; exact List.mem_cons.mp hc
  -- Step 1: the cleanup pass leaves the canonical url unchanged.
  have hclean : cleanUrl (scheme ++ ':' :: '/' :: '/' ::
      (netloc ++ ('/' :: pt ++ (if q = [] then [] else '?' :: q)))) =
      scheme ++ ':' :: '/' :: '/' ::
        (netloc ++ ('/' :: pt ++ (if q = [] then [] else '?' :: q))) := by
    obtain ⟨c0, sc, rfl⟩ : ∃ c0 sc, scheme = c0 :: sc := by
      cases scheme with
      | nil => exact absurd rfl hsne
      | cons a b => exact ⟨a, b, rfl⟩
    have hc0 := hsfacts c0 (List.mem_cons_self c0 sc)
    rw [cleanUrl, List.cons_append, List.dropWhile_cons,
      if_neg (by rw [stripPred_false c0 hc0.2.2.2.1]; simp)]
    refine List.filter_eq_self.mpr fun c hc => ?_
    rcases List.mem_cons.mp hc with rfl | hc
    · exact cleanChar_pred c hc0.2.2.2.2.1 hc0.2.2.2.2.2.1 hc0.2.2.2.2.2.2
    rcases List.mem_append.mp hc with h | h
    · have := hsfacts c (List.mem_cons_of_mem c0 h)
      exact cleanChar_pred c this.2.2.2.2.1 this.2.2.2.2.2.1 this.2.2.2.2.2.2
    rcases List.mem_cons.mp h with rfl | h
    · exact cleanChar_pred _ (by decide) (by decide) (by decide)
    rcases List.mem_cons.mp h with rfl | h
    · exact cleanChar_pred _ (by decide) (by decide) (by decide)
    rcases List.mem_cons.mp h with rfl | h
    · exact cleanChar_pred _ (by decide) (by decide) (by decide)
    rcases List.mem_append.mp h with h | h
    · have := hnfacts c h
      exact cleanChar_pred c this.2.1 this.2.2.1 this.2.2.2
    rcases List.mem_append.mp h with h | h
    · have := hpfacts c h
      exact cleanChar_pred c this.2.2.1 this.2.2.2.1 this.2.2.2.2
    · rcases hoptq c h with rfl | h
      · exact cleanChar_pred _ (by decide) (by decide) (by decide)
      · have := hqfacts c h
        exact cleanChar_pred c this.2.1 this.2.2.1 this.2.2.2
  -- Step 2: scheme split.
  have hscheme : splitScheme (scheme ++ ':' :: '/' :: '/' ::
      (netloc ++ ('/' :: pt ++ (if q = [] then [] else '?' :: q)))) =
      (scheme, '/' :: '/' :: (netloc ++ ('/' :: pt ++ (if q = [] then [] else '?' :: q)))) :=
    splitScheme_reconstruct _ _ hsne hshead (fun c hc => (hsfacts c hc).1)
      (fun c hc => (hsfacts c hc).2.1)
      (fun c hc => bne_iff_ne.mpr fun he =>
        (hsfacts c hc).2.2.1 ((char_toNat_eq_of_eq he).trans rfl))
  -- Step 3: netloc extraction.
  have hnl1 : List.takeWhile (fun c => !isNetlocDelim c)
      (netloc ++ ('/' :: pt ++ (if q = [] then [] else '?' :: q))) = netloc := by
    rw [List.cons_append]
    exact takeWhile_append_cons _ _ _ _
      (fun c hc => by rw [(hnfacts c hc).1]; rfl) (by decide)
  have hnl2 : List.dropWhile (fun c => !isNetlocDelim c)
      (netloc ++ ('/' :: pt ++ (if q = [] then [] else '?' :: q))) =
      '/' :: (pt ++ (if q = [] then [] else '?' :: q)) := by
    rw [List.cons_append]
    exact dropWhile_append_cons _ _ _ _
      (fun c hc => by rw [(hnfacts c hc).1]; rfl) (by decide)
  -- Step 4: no fragment.
  have hnofrag : ('/' :: (pt ++ (if q = [] then [] else '?' :: q))).contains '#' = false := by
    refine contains_eq_false_of_not_mem fun hm => ?_
    rcases List.mem_cons.mp hm with he | hm
    · cases he
    rcases List.mem_append.mp hm with h | h
    · have := (hpfacts '#' (List.mem_cons_of_mem '/' h)).1
      simp at this
    · rcases hoptq '#' h with he | h
      · cases he
      · exact (hqfacts '#' h).1 rfl
  simp only [pyUrlsplit, hclean, hscheme]
  rw [if_pos (show (('/' :: '/' :: (netloc ++ ('/' :: pt ++
    (if q = [] then [] else '?' :: q)))).take 2 = ['/', '/'] ) from rfl)]
  simp only [List.drop_succ_cons, List.drop_zero, hnl1, hnl2]
  rw [if_neg (show ¬(((netloc.contains '[' && !netloc.contains ']') ||
      (netloc.contains ']' && !netloc.contains '[')) = true) from by rw [hbrack]; simp)]
  rw [if_neg (show ¬(('/' :: (pt ++ (if q = [] then [] else '?' :: q))).contains '#' = true)
    from by rw [hnofrag]; simp)]
  -- Step 5: the query split.
  by_cases hq : q = []
  · subst hq
    rw [if_pos rfl] at hnofrag ⊢
    rw [List.append_nil]
    rw [if_neg (show ¬(('/' :: pt).contains '?' = true) from by
      refine (contains_eq_false_of_not_mem fun hm => ?_) ▸ (by simp)
      have := (hpfacts '?' hm).2.1
      simp at this)]
  · rw [if_neg hq]
    have hq1 : ('/' :: (pt ++ '?' :: q)).contains '?' = true :=
      contains_eq_true_of_mem
        (List.mem_cons_of_mem '/' (List.mem_append.mpr (Or.inr (List.mem_cons_self _ _))))
    rw [if_pos hq1]
    have hptw : ∀ c ∈ '/' :: pt, (c != '?') = true := by
      intro c hc
      exact (hpfacts c hc).2.1
    rw [show ('/' :: (pt ++ '?' :: q)) = ('/' :: pt) ++ '?' :: q from by simp,
      takeWhile_append_cons _ _ _ _ hptw (by decide),
      dropWhile_append_cons _ _ _ _ hptw (by decide), List.tail_cons]

/-- `geturl` of the canonical parts produced by `_normalize_internal_url`. -/
theorem pyUrlunparse_canon (scheme netloc path q : Chars) (hsne : scheme ≠ [])
    (hnne : netloc ≠ []) (hphead : path.head? = some '/') :
    pyUrlunparse ⟨scheme, netloc, path, [], q, []⟩ =
      scheme ++ ':' :: '/' :: '/' ::
        (netloc ++ (path ++ (if q = [] then [] else '?' :: q))) := by
  simp only [pyUrlunparse, pyUrlunsplit]
  simp only [if_neg (show ¬(([] : Chars) ≠ []) from by simp)]
  rw [if_pos (Or.inl hnne)]
  rw [if_neg (show ¬(path ≠ [] ∧ path.head? ≠ some '/') from fun hc => hc.2 hphead)]
  rw [if_pos hsne]
  by_cases hq : q = []
  · subst hq
    rw [if_neg (show ¬(([] : Chars) ≠ []) from by simp), if_pos rfl]
    simp [List.append_assoc]
  · rw [if_pos hq, if_neg hq]
    simp [List.append_assoc]

/-- `urlparse` of the canonical output string, given the properties its
components inherit from the first parse. -/
theorem pyUrlparse_canon_output (scheme netloc path q : Chars)
    (hsne : scheme ≠ [])
    (hshead : isAsciiAlpha (scheme.headD 'x') = true)
    (hsfacts : ∀ c ∈ scheme, isSchemeChar c = true ∧ pyLower c = c ∧ c.toNat ≠ 58 ∧
      32 < c.toNat ∧ c.toNat ≠ 9 ∧ c.toNat ≠ 13 ∧ c.toNat ≠ 10)
    (hnne : netloc ≠ [])
    (hnfacts : ∀ c ∈ netloc, isNetlocDelim c = false ∧ c.toNat ≠ 9 ∧ c.toNat ≠ 13 ∧
      c.toNat ≠ 10)
    (hbrack : ((netloc.contains '[' && !netloc.contains ']') ||
      (netloc.contains ']' && !netloc.contains '[')) = false)
    (hphead : path.head? = some '/')
    (hpfacts : ∀ c ∈ path, (c != '#') = true ∧ (c != '?') = true ∧ c.toNat ≠ 9 ∧
      c.toNat ≠ 13 ∧ c.toNat ≠ 10)
    (hqfacts : ∀ c ∈ q, c.toNat ≠ 35 ∧ c.toNat ≠ 9 ∧ c.toNat ≠ 13 ∧ c.toNat ≠ 10)
    (hsp : uses_params.contains scheme = true → path.contains ';' = true →
      splitParams path = (path, [])) :
    pyUrlparse (pyUrlunparse ⟨scheme, netloc, path, [], q, []⟩) =
      some ⟨scheme, netloc, path, [], q, []⟩ := by
  rw [pyUrlunparse_canon scheme netloc path q hsne hnne hphead]
  rw [pyUrlparse]
  rw [pyUrlsplit_canon_output scheme netloc path q hsne hshead hsfacts hnne hnfacts hbrack
    hphead hpfacts hqfacts]
  dsimp only
  by_cases hcond : uses_params.contains scheme = true ∧ path.contains ';' = true
  · rw [if_pos hcond, hsp hcond.1 hcond.2]
  · rw [if_neg hcond]

/-- Characters surviving `cleanUrl`: none of the removed bytes, and all drawn
from the input. -/
theorem cleanUrl_chars (u : Chars) :
    ∀ c ∈ cleanUrl u, c.toNat ≠ 9 ∧ c.toNat ≠ 13 ∧ c.toNat ≠ 10 ∧ c ∈ u := by
  intro c hc
  rw [cleanUrl] at hc
  have hpred := List.of_mem_filter hc
  have hmem : c ∈ u := (List.dropWhile_sublist _).subset ((List.filter_sublist _).subset hc)
  have h9 : c.toNat ≠ 9 := fun he => by
    have : c = '\t' := char_eq_of_toNat (by rw [he]; rfl)
    subst this
    simp at hpred
  have h13 : c.toNat ≠ 13 := fun he => by
    have : c = '\r' := char_eq_of_toNat (by rw [he]; rfl)
    subst this
    simp at hpred
  have h10 : c.toNat ≠ 10 := fun he => by
    have : c = '\n' := char_eq_of_toNat (by rw [he]; rfl)
    subst this
    simp at hpred
  exact ⟨h9, h13, h10, hmem⟩

/-- The scheme component of `splitScheme` is empty or made of lowercased,
validated scheme characters headed by an ASCII letter. -/
theorem splitScheme_fst_facts (url : Chars) :
    (splitScheme url).1 = [] ∨
    ((∀ c ∈ (splitScheme url).1, isSchemeChar c = true ∧ pyLower c = c ∧ c.toNat ≠ 58 ∧
        32 < c.toNat ∧ c.toNat ≠ 9 ∧ c.toNat ≠ 13 ∧ c.toNat ≠ 10) ∧
      isAsciiAlpha ((splitScheme url).1.headD 'x') = true) := by
  simp only [splitScheme]
  by_cases hc : (url.contains ':' && !(url.takeWhile (· != ':')).isEmpty &&
      isAsciiAlpha ((url.takeWhile (· != ':')).headD 'x') &&
      (url.takeWhile (· != ':')).all isSchemeChar) = true
  · rw [if_pos hc]
    simp only [Bool.and_eq_true] at hc
    obtain ⟨⟨⟨_, hne⟩, hhead⟩, hall⟩ := hc
    refine Or.inr ⟨?_, ?_⟩
    · intro c hcm
      rcases List.mem_map.mp hcm with ⟨c0, hc0, rfl⟩
      have hs := List.all_eq_true.mp hall c0 hc0
      have := pyLower_schemeChar c0 hs
      exact ⟨this.1, this.2.1, this.2.2.1, this.2.2.2.1, this.2.2.2.2.1,
        this.2.2.2.2.2.1, this.2.2.2.2.2.2⟩
    · rcases htw : url.takeWhile (· != ':') with _ | ⟨c0, t⟩
      · rw [htw] at hne
        simp at hne
      · rw [htw] at hhead
        show isAsciiAlpha ((List.map pyLower (c0 :: t)).headD 'x') = true
        rw [List.map_cons]
        simpa using pyLower_asciiAlpha c0 (by simpa using hhead)
  · rw [if_neg hc]
    exact Or.inl rfl

/-- The remainder component of `splitScheme` draws its characters from the
input. -/
theorem splitScheme_snd_sub (url : Chars) : ∀ c ∈ (splitScheme url).2, c ∈ url := by
  simp only [splitScheme]
  by_cases hc : (url.contains ':' && !(url.takeWhile (· != ':')).isEmpty &&
      isAsciiAlpha ((url.takeWhile (· != ':')).headD 'x') &&
      (url.takeWhile (· != ':')).all isSchemeChar) = true
  · rw [if_pos hc]
    intro c hcm
    exact (List.dropWhile_sublist _).subset (List.tail_subset _ hcm)
  · rw [if_neg hc]
    exact fun c hcm => hcm

/-- The remainder after the netloc scan is empty or starts with one of the
three delimiters `/?#`. -/
theorem netloc_rest_head (D : Chars) :
    List.dropWhile (fun c => !isNetlocDelim c) D = [] ∨
    ∃ t, List.dropWhile (fun c => !isNetlocDelim c) D = '/' :: t ∨
         List.dropWhile (fun c => !isNetlocDelim c) D = '?' :: t ∨
         List.dropWhile (fun c => !isNetlocDelim c) D = '#' :: t := by
  rcases hdw : List.dropWhile (fun c => !isNetlocDelim c) D with _ | ⟨d, t⟩
  · exact Or.inl rfl
  · have hd := dropWhile_head_false _ D d t hdw
    have hd' : d = '/' ∨ d = '?' ∨ d = '#' := by
      simp [isNetlocDelim] at hd
      tauto
    refine Or.inr ⟨t, ?_⟩
    rcases hd' with rfl | rfl | rfl
    · exact Or.inl rfl
    · exact Or.inr (Or.inl rfl)
    · exact Or.inr (Or.inr rfl)

/-- Applying the canonicalizer to a canonical output built from validated
components returns that output unchanged. -/
theorem canon_reapply (sch netl PATH qry : Chars)
    (hsne : sch ≠ []) (hshead : isAsciiAlpha (sch.headD 'x') = true)
    (hsfacts : ∀ c ∈ sch, isSchemeChar c = true ∧ pyLower c = c ∧ c.toNat ≠ 58 ∧
      32 < c.toNat ∧ c.toNat ≠ 9 ∧ c.toNat ≠ 13 ∧ c.toNat ≠ 10)
    (hnne : netl ≠ [])
    (hnfacts : ∀ c ∈ netl, isNetlocDelim c = false ∧ c.toNat ≠ 9 ∧ c.toNat ≠ 13 ∧
      c.toNat ≠ 10)
    (hbrack : ((netl.contains '[' && !netl.contains ']') ||
      (netl.contains ']' && !netl.contains '[')) = false)
    (hphead : PATH.head? = some '/')
    (hpfacts : ∀ c ∈ PATH, (c != '#') = true ∧ (c != '?') = true ∧ c.toNat ≠ 9 ∧
      c.toNat ≠ 13 ∧ c.toNat ≠ 10)
    (hqb : ByteStr qry)
    (hsp : uses_params.contains sch = true → PATH.contains ';' = true →
      splitParams PATH = (PATH, [])) :
    _normalize_internal_url
        (pyUrlunparse ⟨sch, netl, PATH, [], urlencode (parse_qsl qry), []⟩) =
      some (pyUrlunparse ⟨sch, netl, PATH, [], urlencode (parse_qsl qry), []⟩) := by
  have hq1 : ∀ d ∈ urlencode (parse_qsl qry), d.toNat ≠ 35 ∧ d.toNat ≠ 9 ∧
      d.toNat ≠ 13 ∧ d.toNat ≠ 10 := by
    intro d hd
    obtain ⟨h35, _, h9, h13, h10, _⟩ := urlencode_char_facts _ (parse_qsl_bytes qry hqb) d hd
    exact ⟨h35, h9, h13, h10⟩
  have hPne : PATH ≠ [] := fun he => by rw [he] at hphead; cases hphead
  simp only [_normalize_internal_url,
    pyUrlparse_canon_output sch netl PATH (urlencode (parse_qsl qry))
      hsne hshead hsfacts hnne hnfacts hbrack hphead hpfacts hq1 hsp]
  rw [if_neg (show ¬(sch = [] ∨ netl = []) from by
    rintro (hx | hx); exacts [hsne hx, hnne hx])]
  rw [if_neg hPne]
  rw [parse_qsl_urlencode (parse_qsl qry) (parse_qsl_bytes qry hqb)]

/-- **C8.** URL canonicalization is idempotent: whenever
`_normalize_internal_url` succeeds on a byte string `u`, producing `s`,
applying it to `s` yields `s` again. -/
theorem normalize_internal_url_idempotent (u s : Chars) (hb : ByteStr u)
    (h : _normalize_internal_url u = some s) :
    _normalize_internal_url s = some s := by
  rcases hp : pyUrlparse u with _ | p
  · rw [_normalize_internal_url, hp] at h
    exact Option.noConfusion h
  simp only [_normalize_internal_url, hp] at h
  by_cases hguard : p.scheme = [] ∨ p.netloc = []
  · rw [if_pos hguard] at h
    exact Option.noConfusion h
  rw [if_neg hguard] at h
  have hs := Option.some.inj h
  push_neg at hguard
  obtain ⟨hsne, hnne⟩ := hguard
  rcases hps : pyUrlsplit u with _ | ⟨sch, netl, rest, qry, frg⟩
  · rw [pyUrlparse, hps] at hp
    exact Option.noConfusion hp
  simp only [pyUrlparse, hps] at hp
  have hcomp : p.scheme = sch ∧ p.netloc = netl ∧ p.query = qry := by
    by_cases hpar : uses_params.contains sch = true ∧ List.contains rest ';' = true
    · rw [if_pos hpar] at hp
      rw [← Option.some.inj hp]
      exact ⟨rfl, rfl, rfl⟩
    · rw [if_neg hpar] at hp
      rw [← Option.some.inj hp]
      exact ⟨rfl, rfl, rfl⟩
  have hsne' : sch ≠ [] := hcomp.1 ▸ hsne
  have hnne' : netl ≠ [] := hcomp.2.1 ▸ hnne
  have hfacts : sch = (splitScheme (cleanUrl u)).1 ∧
      ((netl.contains '[' && !netl.contains ']') ||
        (netl.contains ']' && !netl.contains '[')) = false ∧
      (∀ c ∈ netl, isNetlocDelim c = false ∧ c ∈ cleanUrl u) ∧
      (∀ c ∈ rest, (c != '#') = true ∧ (c != '?') = true ∧ c ∈ cleanUrl u) ∧
      (∀ c ∈ qry, c ∈ cleanUrl u) ∧
      (rest = [] ∨ rest.head? = some '/') := by
    simp only [pyUrlsplit] at hps
    by_cases ht2 : ((splitScheme (cleanUrl u)).2.take 2) = ['/', '/']
    case neg =>
      rw [if_neg ht2] at hps
      dsimp only at hps
      split at hps
      next => exact Option.noConfusion hps
      next =>
        simp only [Option.some.injEq, Prod.mk.injEq] at hps
        exact absurd hps.2.1.symm hnne'
    case pos =>
      rw [if_pos ht2] at hps
      dsimp only at hps
      have hsubD : ∀ c ∈ List.drop 2 (splitScheme (cleanUrl u)).2, c ∈ cleanUrl u :=
        fun c hc => splitScheme_snd_sub (cleanUrl u) c (List.drop_subset _ _ hc)
      have hsubTW : ∀ c ∈ List.takeWhile (fun c => !isNetlocDelim c)
          (List.drop 2 (splitScheme (cleanUrl u)).2), c ∈ cleanUrl u :=
        fun c hc => hsubD c ((List.takeWhile_sublist _).subset hc)
      have hsubDW : ∀ c ∈ List.dropWhile (fun c => !isNetlocDelim c)
          (List.drop 2 (splitScheme (cleanUrl u)).2), c ∈ cleanUrl u :=
        fun c hc => hsubD c ((List.dropWhile_sublist _).subset hc)
      by_cases hfr : (List.dropWhile (fun c => !isNetlocDelim c)
          (List.drop 2 (splitScheme (cleanUrl u)).2)).contains '#' = true
      · rw [if_pos hfr] at hps
        dsimp only at hps
        by_cases hqu : (List.takeWhile (fun x => x != '#')
            (List.dropWhile (fun c => !isNetlocDelim c)
              (List.drop 2 (splitScheme (cleanUrl u)).2))).contains '?' = true
        · rw [if_pos hqu] at hps
          dsimp only at hps
          split at hps
          next => exact Option.noConfusion hps
          next hbr =>
            simp only [Option.some.injEq, Prod.mk.injEq] at hps
            obtain ⟨hps1, hps2, hps3, hps4, hps5⟩ := hps
            have hbrF := Bool.eq_false_iff.mpr hbr
            rw [hps2] at hbrF
            refine ⟨hps1.symm, hbrF, ?_, ?_, ?_, ?_⟩
            · intro c hc
              rw [← hps2] at hc
              refine ⟨?_, hsubTW c hc⟩
              have hpc := List.mem_takeWhile_imp (p := fun c => !isNetlocDelim c) hc
              simpa using hpc
            · intro c hc
              rw [← hps3] at hc
              have h1 : (c != '?') = true :=
                List.mem_takeWhile_imp (p := fun x => x != '?') hc
              have hc2 := (List.takeWhile_sublist _).subset hc
              have h2 : (c != '#') = true :=
                List.mem_takeWhile_imp (p := fun x => x != '#') hc2
              exact ⟨h2, h1, hsubDW c ((List.takeWhile_sublist _).subset hc2)⟩
            · intro c hc
              rw [← hps4] at hc
              exact hsubDW c ((List.takeWhile_sublist _).subset
                ((List.dropWhile_sublist _).subset (List.tail_subset _ hc)))
            · rcases netloc_rest_head (List.drop 2 (splitScheme (cleanUrl u)).2) with
                hnil | ⟨t, hsl | hqm | hhm⟩
              · rw [hnil] at hfr
                exact absurd hfr (by decide)
              · right
                rw [← hps3, hsl, List.takeWhile_cons_of_pos (by decide),
                  List.takeWhile_cons_of_pos (by decide)]
                rfl
              · left
                rw [← hps3, hqm, List.takeWhile_cons_of_pos (by decide),
                  List.takeWhile_cons_of_neg (by decide)]
              · left
                rw [← hps3, hhm, List.takeWhile_cons_of_neg (by decide),
                  List.takeWhile_nil]
        · rw [if_neg hqu] at hps
          dsimp only at hps
          split at hps
          next => exact Option.noConfusion hps
          next hbr =>
            simp only [Option.some.injEq, Prod.mk.injEq] at hps
            obtain ⟨hps1, hps2, hps3, hps4, hps5⟩ := hps
            have hbrF := Bool.eq_false_iff.mpr hbr
            rw [hps2] at hbrF
            refine ⟨hps1.symm, hbrF, ?_, ?_, ?_, ?_⟩
            · intro c hc
              rw [← hps2] at hc
              refine ⟨?_, hsubTW c hc⟩
              have hpc := List.mem_takeWhile_imp (p := fun c => !isNetlocDelim c) hc
              simpa using hpc
            · intro c hc
              rw [← hps3] at hc
              have h2 : (c != '#') = true :=
                List.mem_takeWhile_imp (p := fun x => x != '#') hc
              have h1 : (c != '?') = true := by
                by_contra hq'
                rw [Bool.not_eq_true] at hq'
                have hceq : c = '?' := bne_eq_false_iff_eq.mp hq'
                rw [hceq] at hc
                exact hqu (contains_eq_true_of_mem hc)
              exact ⟨h2, h1, hsubDW c ((List.takeWhile_sublist _).subset hc)⟩
            · intro c hc
              rw [← hps4] at hc
              exact absurd hc (List.not_mem_nil c)
            · rcases netloc_rest_head (List.drop 2 (splitScheme (cleanUrl u)).2) with
                hnil | ⟨t, hsl | hqm | hhm⟩
              · rw [hnil] at hfr
                exact absurd hfr (by decide)
              · right
                rw [← hps3, hsl, List.takeWhile_cons_of_pos (by decide)]
                rfl
              · rw [hqm, List.takeWhile_cons_of_pos (by decide)] at hqu
                exact absurd (by simp) hqu
              · left
                rw [← hps3, hhm, List.takeWhile_cons_of_neg (by decide)]
      · rw [if_neg hfr] at hps
        dsimp only at hps
        by_cases hqu : (List.dropWhile (fun c => !isNetlocDelim c)
            (List.drop 2 (splitScheme (cleanUrl u)).2)).contains '?' = true
        · rw [if_pos hqu] at hps
          dsimp only at hps
          split at hps
          next => exact Option.noConfusion hps
          next hbr =>
            simp only [Option.some.injEq, Prod.mk.injEq] at hps
            obtain ⟨hps1, hps2, hps3, hps4, hps5⟩ := hps
            have hbrF := Bool.eq_false_iff.mpr hbr
            rw [hps2] at hbrF
            refine ⟨hps1.symm, hbrF, ?_, ?_, ?_, ?_⟩
            · intro c hc
              rw [← hps2] at hc
              refine ⟨?_, hsubTW c hc⟩
              have hpc := List.mem_takeWhile_imp (p := fun c => !isNetlocDelim c) hc
              simpa using hpc
            · intro c hc
              rw [← hps3] at hc
              have h1 : (c != '?') = true :=
                List.mem_takeWhile_imp (p := fun x => x != '?') hc
              have hc2 := (List.takeWhile_sublist _).subset hc
              have h2 : (c != '#') = true := by
                by_contra hh'
                rw [Bool.not_eq_true] at hh'
                have hceq : c = '#' := bne_eq_false_iff_eq.mp hh'
                rw [hceq] at hc2
                exact hfr (contains_eq_true_of_mem hc2)
              exact ⟨h2, h1, hsubDW c hc2⟩
            · intro c hc
              rw [← hps4] at hc
              exact hsubDW c ((List.dropWhile_sublist _).subset (List.tail_subset _ hc))
            · rcases netloc_rest_head (List.drop 2 (splitScheme (cleanUrl u)).2) with
                hnil | ⟨t, hsl | hqm | hhm⟩
              · left
                rw [← hps3, hnil, List.takeWhile_nil]
              · right
                rw [← hps3, hsl, List.takeWhile_cons_of_pos (by decide)]
                rfl
              · left
                rw [← hps3, hqm, List.takeWhile_cons_of_neg (by decide)]
              · rw [hhm] at hfr
                exact absurd (by simp) hfr
        · rw [if_neg hqu] at hps
          dsimp only at hps
          split at hps
          next => exact Option.noConfusion hps
          next hbr =>
            simp only [Option.some.injEq, Prod.mk.injEq] at hps
            obtain ⟨hps1, hps2, hps3, hps4, hps5⟩ := hps
            have hbrF := Bool.eq_false_iff.mpr hbr
            rw [hps2] at hbrF
            refine ⟨hps1.symm, hbrF, ?_, ?_, ?_, ?_⟩
            · intro c hc
              rw [← hps2] at hc
              refine ⟨?_, hsubTW c hc⟩
              have hpc := List.mem_takeWhile_imp (p := fun c => !isNetlocDelim c) hc
              simpa using hpc
            · intro c hc
              rw [← hps3] at hc
              have h2 : (c != '#') = true := by
                by_contra hh'
                rw [Bool.not_eq_true] at hh'
                have hceq : c = '#' := bne_eq_false_iff_eq.mp hh'
                rw [hceq] at hc
                exact hfr (contains_eq_true_of_mem hc)
              have h1 : (c != '?') = true := by
                by_contra hq'
                rw [Bool.not_eq_true] at hq'
                have hceq : c = '?' := bne_eq_false_iff_eq.mp hq'
                rw [hceq] at hc
                exact hqu (contains_eq_true_of_mem hc)
              exact ⟨h2, h1, hsubDW c hc⟩
            · intro c hc
              rw [← hps4] at hc
              exact absurd hc (List.not_mem_nil c)
            · rcases netloc_rest_head (List.drop 2 (splitScheme (cleanUrl u)).2) with
                hnil | ⟨t, hsl | hqm | hhm⟩
              · left
                rw [← hps3, hnil]
              · right
                rw [← hps3, hsl]
                rfl
              · rw [hqm] at hqu
                exact absurd (by simp) hqu
              · rw [hhm] at hfr
                exact absurd (by simp) hfr
  obtain ⟨h1, hbrF, hnetlF, hrestF, hqryF, hheadF⟩ := hfacts
  have hsch_facts := splitScheme_fst_facts (cleanUrl u)
  rw [← h1] at hsch_facts
  rcases hsch_facts with hempty | ⟨hsfacts', hshead'⟩
  · exact absurd hempty hsne'
  have hnfacts' : ∀ c ∈ netl, isNetlocDelim c = false ∧ c.toNat ≠ 9 ∧ c.toNat ≠ 13 ∧
      c.toNat ≠ 10 := by
    intro c hc
    obtain ⟨hd, hcu⟩ := hnetlF c hc
    obtain ⟨h9, h13, h10, _⟩ := cleanUrl_chars u c hcu
    exact ⟨hd, h9, h13, h10⟩
  have hqb : ByteStr qry := fun c hc => hb c (cleanUrl_chars u c (hqryF c hc)).2.2.2
  by_cases hpar : uses_params.contains sch = true ∧ List.contains rest ';' = true
  · rw [if_pos hpar] at hp
    have hpe := Option.some.inj hp
    subst hpe
    dsimp only at hs
    have hrne : rest ≠ [] := by
      intro he
      rw [he] at hpar
      exact absurd hpar.2 (by decide)
    have hrhead : rest.head? = some '/' := hheadF.resolve_left hrne
    have hslash : '/' ∈ rest := by
      rcases rest with _ | ⟨r0, rt⟩
      · exact absurd rfl hrne
      · rw [show r0 = '/' from by simpa using hrhead]
        exact List.mem_cons_self _ _
    obtain ⟨hsphead, hspsub, hspstable⟩ := splitParams_spec rest hslash
    have hphead' : (splitParams rest).1.head? = some '/' := hsphead.trans hrhead
    have hsp1ne : (splitParams rest).1 ≠ [] := by
      intro he
      rw [he] at hsphead
      rw [hrhead] at hsphead
      exact Option.noConfusion hsphead
    have hpfacts' : ∀ c ∈ (splitParams rest).1, (c != '#') = true ∧ (c != '?') = true ∧
        c.toNat ≠ 9 ∧ c.toNat ≠ 13 ∧ c.toNat ≠ 10 := by
      intro c hc
      obtain ⟨hh, hq', hcu⟩ := hrestF c (hspsub c hc)
      obtain ⟨h9, h13, h10, _⟩ := cleanUrl_chars u c hcu
      exact ⟨hh, hq', h9, h13, h10⟩
    rw [if_neg hsp1ne] at hs
    rw [← hs]
    exact canon_reapply sch netl ((splitParams rest).1) qry hsne' hshead' hsfacts' hnne'
      hnfacts' hbrF hphead' hpfacts' hqb (fun _ hsemi => hspstable hsemi)
  · rw [if_neg hpar] at hp
    have hpe := Option.some.inj hp
    subst hpe
    dsimp only at hs
    by_cases hre : rest = []
    · rw [if_pos hre] at hs
      rw [← hs]
      exact canon_reapply sch netl ['/'] qry hsne' hshead' hsfacts' hnne' hnfacts' hbrF rfl
        (by decide) hqb (fun _ hsemi => absurd hsemi (by decide))
    · rw [if_neg hre] at hs
      have hrhead : rest.head? = some '/' := hheadF.resolve_left hre
      have hpfacts' : ∀ c ∈ rest, (c != '#') = true ∧ (c != '?') = true ∧
          c.toNat ≠ 9 ∧ c.toNat ≠ 13 ∧ c.toNat ≠ 10 := by
        intro c hc
        obtain ⟨hh, hq', hcu⟩ := hrestF c hc
        obtain ⟨h9, h13, h10, _⟩ := cleanUrl_chars u c hcu
        exact ⟨hh, hq', h9, h13, h10⟩
      rw [← hs]
      exact canon_reapply sch netl rest qry hsne' hshead' hsfacts' hnne' hnfacts' hbrF
        hrhead hpfacts' hqb (fun husep hsemi => absurd ⟨husep, hsemi⟩ hpar)

/-- **C8 witness.** A concrete run: canonicalizing `HTTP://h/p;x?a=%31#f`
yields `http://h/p?a=1`, and the canonicalizer maps that output to itself. -/
theorem normalize_internal_url_idempotent_witness :
    _normalize_internal_url "http://h/p?a=1".toList = some "http://h/p?a=1".toList :=
  normalize_internal_url_idempotent "HTTP://h/p;x?a=%31#f".toList
    "http://h/p?a=1".toList
    (show ∀ c ∈ "HTTP://h/p;x?a=%31#f".toList, c.toNat < 256 by decide) (by decide)

/-! ## The crawler (`generate_site_map`, `helper/common.py` 410–472)

The network and HTML layers (`_fetch_html`, `BeautifulSoup`,
`_extract_meta_from_soup`, `hashlib.sha1`, `urljoin`) are abstracted as
parameters: a fetched page carries its anchor `href` list, its extracted
metadata pairs and its content hash, and `join` stands for `urljoin`.  The
`while` loop becomes `crawlLoop` with explicit fuel; `generate_site_map` runs
it with fuel `max_pages * (queue_budget + 1) + 2`, which is proved sufficient
(`crawlLoop_isSome`), so a `none` result models non-termination and never
occurs. -/

structure FetchedPage where
  anchors : List Chars
  meta : List (Chars × Chars)
  hash : Chars
deriving DecidableEq, Repr

structure CrawlPage where
  url : Chars
  meta : Option (List (Chars × Chars))
deriving DecidableEq, Repr

/-- `page_meta = {k: v for k, v in meta.items() if k != "url"}` followed by
`page_meta["hash"] = ...`; the extractor never emits a `hash` key, so the
dict update is an append. -/
def pageMeta (pg : FetchedPage) : List (Chars × Chars) :=
  pg.meta.filter (fun kv => kv.1 != "url".toList) ++ [("hash".toList, pg.hash)]

/-- `level >= max_depth`, where `max_depth` is the request depth or `math.inf`
when absent. -/
def depthReached (maxDepth : Option Int) (level : Nat) : Bool :=
  match maxDepth with
  | none => false
  | some d => decide (d ≤ (level : Int))

/-- The body of the `for anchor in soup.find_all("a", href=True)` loop: skip
empty hrefs, canonicalize `urljoin(current, href)`, keep only http/https
candidates on the base netloc that are unseen while the queue is under budget.
(The inner `urlparse` of a canonical url cannot fail; the `none` arm is
unreachable.) -/
def enqueueStep (join : Chars → Chars → Chars) (queueBudget : Nat)
    (baseNetloc : Chars) (seen : List Chars) (current : Chars) (level : Nat)
    (q : List (Chars × Nat)) (href : Chars) : List (Chars × Nat) :=
  if href = [] then q
  else
    match _normalize_internal_url (join current href) with
    | none => q
    | some cand =>
      match pyUrlparse cand with
      | none => q
      | some pc =>
        if (pc.scheme = "http".toList ∨ pc.scheme = "https".toList) ∧
            pc.netloc = baseNetloc ∧ cand ∉ seen ∧ q.length < queueBudget then
          q ++ [(cand, level + 1)]
        else q

/-- The crawl `while` loop with explicit fuel (`none` = fuel exhausted). -/
def crawlLoop (fetch : Chars → Option FetchedPage) (join : Chars → Chars → Chars)
    (maxDepth : Option Int) (maxPages queueBudget : Nat) (baseNetloc : Chars) :
    Nat → List (Chars × Nat) → List Chars → List CrawlPage →
      Option (List CrawlPage)
  | 0, _, _, _ => none
  | fuel + 1, queue, seen, pages =>
    if maxPages ≤ pages.length then some pages
    else
      match queue with
      | [] => some pages
      | (current, level) :: rest =>
        if current ∈ seen then
          crawlLoop fetch join maxDepth maxPages queueBudget baseNetloc
            fuel rest seen pages
        else
          match fetch current with
          | none =>
            crawlLoop fetch join maxDepth maxPages queueBudget baseNetloc
              fuel rest (current :: seen) pages
          | some pg =>
            if depthReached maxDepth level then
              crawlLoop fetch join maxDepth maxPages queueBudget baseNetloc
                fuel rest (current :: seen)
                (pages ++ [⟨current,
                  if pageMeta pg = [] then none else some (pageMeta pg)⟩])
            else
              crawlLoop fetch join maxDepth maxPages queueBudget baseNetloc
                fuel
                (pg.anchors.foldl
                  (enqueueStep join queueBudget baseNetloc (current :: seen)
                    current level) rest)
                (current :: seen)
                (pages ++ [⟨current,
                  if pageMeta pg = [] then none else some (pageMeta pg)⟩])

/-- `generate_site_map(site_id, start_url=..., depth=..., limit=...)`,
page-list part.  `envMaxPages`/`envFanout` are the integers read from
`SITEMAP_MAX_PAGES` / `SITEMAP_QUEUE_FANOUT`; the source clamps them with
`max(1, ·)` / `max(2, ·)`.  The base-netloc `urlparse` of the canonical start
url cannot fail; its `none` arm is unreachable. -/
def generate_site_map (fetch : Chars → Option FetchedPage)
    (join : Chars → Chars → Chars) (start_url : Chars) (depth : Option Int)
    (limit : Option Int) (envMaxPages envFanout : Int) :
    Option (List CrawlPage) :=
  let maxPagesZ : Int := match limit with
    | some n => max 1 n
    | none => max 1 envMaxPages
  let fanout : Int := max 2 envFanout
  let maxPages : Nat := maxPagesZ.toNat
  let queueBudget : Nat := (max (fanout * 2) (maxPagesZ * fanout)).toNat
  match _normalize_internal_url start_url with
  | none => some []
  | some ns =>
    let baseNetloc : Chars := match pyUrlparse ns with
      | some pb => pb.netloc
      | none => []
    crawlLoop fetch join depth maxPages queueBudget baseNetloc
      (maxPages * (queueBudget + 1) + 2) [(ns, 0)] [] []

/-- One anchor either leaves the queue unchanged or, when it was under budget,
appends a single entry. -/
theorem enqueueStep_cases (join : Chars → Chars → Chars) (B : Nat)
    (netloc : Chars) (seen : List Chars) (current : Chars) (level : Nat)
    (q : List (Chars × Nat)) (href : Chars) :
    enqueueStep join B netloc seen current level q href = q ∨
    (q.length < B ∧
      ∃ c, enqueueStep join B netloc seen current level q href = q ++ [c]) := by
  rw [enqueueStep]
  split
  · exact Or.inl rfl
  · split
    · exact Or.inl rfl
    · split
      · exact Or.inl rfl
      · split
        · rename_i hcond
          exact Or.inr ⟨hcond.2.2.2, _, rfl⟩
        · exact Or.inl rfl

/-- The anchor fold never grows the queue beyond `max q₀.length B`. -/
theorem enqueue_fold_length (join : Chars → Chars → Chars) (B : Nat)
    (netloc : Chars) (seen : List Chars) (current : Chars) (level : Nat)
    (anchors : List Chars) :
    ∀ q0 : List (Chars × Nat),
      (anchors.foldl (enqueueStep join B netloc seen current level) q0).length ≤
        max q0.length B := by
  induction anchors with
  | nil => exact fun q0 => Nat.le_max_left _ _
  | cons a as ih =>
    intro q0
    rw [List.foldl_cons]
    rcases enqueueStep_cases join B netloc seen current level q0 a with
      heq | ⟨hlt, c, heq⟩
    · rw [heq]
      exact ih q0
    · rw [heq]
      have hlen : (q0 ++ [c]).length = q0.length + 1 := by simp
      have h1 := ih (q0 ++ [c])
      rw [hlen] at h1
      have h2 : max (q0.length + 1) B = B := Nat.max_eq_right hlt
      rw [h2] at h1
      exact h1.trans (Nat.le_max_right _ _)

/-- Fuel sufficiency: the loop finishes within
`queue.length + (maxPages - pages.length) * (B + 1)` iterations. -/
theorem crawlLoop_isSome (fetch : Chars → Option FetchedPage)
    (join : Chars → Chars → Chars) (maxDepth : Option Int)
    (maxPages B : Nat) (netloc : Chars) :
    ∀ (fuel : Nat) (queue : List (Chars × Nat)) (seen : List Chars)
      (pages : List CrawlPage),
      queue.length + (maxPages - pages.length) * (B + 1) < fuel →
      (crawlLoop fetch join maxDepth maxPages B netloc fuel queue seen
        pages).isSome = true := by
  intro fuel
  induction fuel with
  | zero => exact fun q s p h => absurd h (Nat.not_lt_zero _)
  | succ fuel ih =>
    intro queue seen pages hM
    simp only [crawlLoop]
    split
    · rfl
    · rename_i hpages
      split
      · rfl
      · rename_i current level rest
        simp only [List.length_cons] at hM
        split
        · exact ih rest seen pages (by omega)
        · have he : (maxPages - pages.length) * (B + 1) =
              (maxPages - (pages.length + 1)) * (B + 1) + (B + 1) := by
            have h1 : maxPages - pages.length = (maxPages - (pages.length + 1)) + 1 := by
              omega
            rw [h1, Nat.succ_mul]
          split
          · exact ih rest (current :: seen) pages (by omega)
          · split
            · exact ih rest (current :: seen) _ (by
                simp only [List.length_append, List.length_cons, List.length_nil,
                  Nat.zero_add]
                omega)
            · rename_i pg hpg hdepth
              have hq' := enqueue_fold_length join B netloc (current :: seen)
                current level pg.anchors rest
              exact ih _ (current :: seen) _ (by
                simp only [List.length_append, List.length_cons, List.length_nil,
                  Nat.zero_add]
                omega)

/-- Visited-set discipline: pages retain pairwise-distinct urls, all of them
recorded in `seen`. -/
theorem crawlLoop_nodup (fetch : Chars → Option FetchedPage)
    (join : Chars → Chars → Chars) (maxDepth : Option Int)
    (maxPages B : Nat) (netloc : Chars) :
    ∀ (fuel : Nat) (queue : List (Chars × Nat)) (seen : List Chars)
      (pages result : List CrawlPage),
      crawlLoop fetch join maxDepth maxPages B netloc fuel queue seen pages =
        some result →
      (pages.map CrawlPage.url).Nodup →
      (∀ x ∈ pages.map CrawlPage.url, x ∈ seen) →
      (result.map CrawlPage.url).Nodup := by
  intro fuel
  induction fuel with
  | zero => exact fun q s p r h _ _ => Option.noConfusion h
  | succ fuel ih =>
    intro queue seen pages result h hnd hsub
    simp only [crawlLoop] at h
    split at h
    · exact (Option.some.inj h) ▸ hnd
    · split at h
      · exact (Option.some.inj h) ▸ hnd
      · rename_i current level rest
        split at h
        · exact ih rest seen pages result h hnd hsub
        · rename_i hcur
          split at h
          · exact ih rest (current :: seen) pages result h hnd
              (fun x hx => List.mem_cons_of_mem _ (hsub x hx))
          · rename_i pg hpg
            have hcu : current ∉ pages.map CrawlPage.url :=
              fun hmem => hcur (hsub _ hmem)
            have hnd' : ∀ m : Option (List (Chars × Chars)),
                ((pages ++ [(⟨current, m⟩ : CrawlPage)]).map CrawlPage.url).Nodup := by
              intro m
              simp only [List.map_append, List.map_cons, List.map_nil]
              refine List.Nodup.append hnd (by simp) ?_
              intro x hx hx'
              have hxc : x = current := by simpa using hx'
              rw [hxc] at hx
              exact hcu hx
            have hsub' : ∀ m : Option (List (Chars × Chars)),
                ∀ x ∈ (pages ++ [(⟨current, m⟩ : CrawlPage)]).map CrawlPage.url,
                x ∈ current :: seen := by
              intro m x hx
              simp only [List.map_append, List.map_cons, List.map_nil] at hx
              rcases List.mem_append.mp hx with hx | hx
              · exact List.mem_cons_of_mem _ (hsub x hx)
              · have hxc : x = current := by simpa using hx
                rw [hxc]
                exact List.mem_cons_self _ _
            split at h
            · exact ih rest (current :: seen) _ result h (hnd' _) (hsub' _)
            · exact ih _ (current :: seen) _ result h (hnd' _) (hsub' _)

/-- Budget preservation through the loop. -/
theorem crawlLoop_length (fetch : Chars → Option FetchedPage)
    (join : Chars → Chars → Chars) (maxDepth : Option Int)
    (maxPages B : Nat) (netloc : Chars) :
    ∀ (fuel : Nat) (queue : List (Chars × Nat)) (seen : List Chars)
      (pages result : List CrawlPage),
      crawlLoop fetch join maxDepth maxPages B netloc fuel queue seen pages =
        some result →
      pages.length ≤ maxPages → result.length ≤ maxPages := by
  intro fuel
  induction fuel with
  | zero => exact fun q s p r h _ => Option.noConfusion h
  | succ fuel ih =>
    intro queue seen pages result h hlen
    simp only [crawlLoop] at h
    split at h
    · exact (Option.some.inj h) ▸ hlen
    · rename_i hpages
      split at h
      · exact (Option.some.inj h) ▸ hlen
      · rename_i current level rest
        split at h
        · exact ih rest seen pages result h hlen
        · split at h
          · exact ih rest (current :: seen) pages result h hlen
          · have hlen' : ∀ m : Option (List (Chars × Chars)),
                (pages ++ [(⟨current, m⟩ : CrawlPage)]).length ≤ maxPages := by
              intro m
              simp only [List.length_append, List.length_cons, List.length_nil]
              omega
            split at h
            · exact ih rest (current :: seen) _ result h (hlen' _)
            · exact ih _ (current :: seen) _ result h (hlen' _)

/-- **C2.** For every fetcher (link graph), join function and parameters —
cycles included — the crawl loop terminates within its proved fuel bound and
the returned pages list mentions each URL at most once. -/
theorem generate_site_map_terminates_nodup (fetch : Chars → Option FetchedPage)
    (join : Chars → Chars → Chars) (start : Chars) (depth : Option Int)
    (limit : Option Int) (envMaxPages envFanout : Int) :
    ∃ pages, generate_site_map fetch join start depth limit envMaxPages
        envFanout = some pages ∧
      (pages.map CrawlPage.url).Nodup := by
  cases hn : _normalize_internal_url start with
  | none =>
    refine ⟨[], ?_, List.nodup_nil⟩
    simp only [generate_site_map, hn]
  | some ns =>
    have hS := crawlLoop_isSome fetch join depth
      (match limit with | some n => max 1 n | none => max 1 envMaxPages).toNat
      ((max ((max 2 envFanout) * 2)
        ((match limit with | some n => max 1 n | none => max 1 envMaxPages) *
          (max 2 envFanout))).toNat)
      (match pyUrlparse ns with | some pb => pb.netloc | none => [])
      ((match limit with | some n => max 1 n | none => max 1 envMaxPages).toNat *
        (((max ((max 2 envFanout) * 2)
          ((match limit with | some n => max 1 n | none => max 1 envMaxPages) *
            (max 2 envFanout))).toNat) + 1) + 2)
      [(ns, 0)] [] []
      (by simp only [List.length_cons, List.length_nil, Nat.sub_zero]; omega)
    obtain ⟨pages, hpg⟩ := Option.isSome_iff_exists.mp hS
    refine ⟨pages, ?_, crawlLoop_nodup _ _ _ _ _ _ _ _ _ _ _ hpg (by simp)
      (by simp)⟩
    simp only [generate_site_map, hn]
    exact hpg

/-- Fetcher for the concrete crawl runs: a single page with no outgoing
links. -/
def crawlFetch1 : Chars → Option FetchedPage := fun u =>
  if u = "http://h/".toList then some ⟨[], [], "x".toList⟩ else none

/-- `urljoin` stand-in for the concrete crawl runs. -/
def crawlJoin1 : Chars → Chars → Chars := fun _ href => href

/-- **C7 counterexample.** With `limit = 0` (a non-negative budget) the
clamp `max(1, limit)` still crawls one page, so the result has length `1 > 0`:
the bound `len(pages) ≤ N` fails at `N = 0`. -/
theorem generate_site_map_zero_budget_counterexample :
    generate_site_map crawlFetch1 crawlJoin1 "http://h/".toList none (some 0)
        5000 4 =
      some [⟨"http://h/".toList, some [("hash".toList, "x".toList)]⟩] ∧
    ¬((([(⟨"http://h/".toList, some [("hash".toList, "x".toList)]⟩ : CrawlPage)] :
        List CrawlPage).length : Int) ≤ 0) :=
  ⟨by decide, by decide⟩

/-- **C7 (amended).** For every page budget `N ≥ 1` the crawl returns at most
`N` pages (at `N = 0` the source clamps the budget to one page first). -/
theorem generate_site_map_respects_budget (fetch : Chars → Option FetchedPage)
    (join : Chars → Chars → Chars) (start : Chars) (depth : Option Int)
    (N : Int) (envMaxPages envFanout : Int) (pages : List CrawlPage)
    (hN : 1 ≤ N)
    (h : generate_site_map fetch join start depth (some N) envMaxPages
      envFanout = some pages) :
    (pages.length : Int) ≤ N := by
  cases hn : _normalize_internal_url start with
  | none =>
    simp only [generate_site_map, hn] at h
    rw [← Option.some.inj h]
    simp only [List.length_nil, Nat.cast_zero]
    omega
  | some ns =>
    simp only [generate_site_map, hn] at h
    have hlen := crawlLoop_length _ _ _ _ _ _ _ _ _ _ _ h (Nat.zero_le _)
    omega

/-- **C7 witness.** A concrete run with budget `N = 1`. -/
theorem generate_site_map_respects_budget_witness :
    1 ≤ (1 : Int) ∧
    generate_site_map crawlFetch1 crawlJoin1 "http://h/".toList none (some 1)
        5000 4 =
      some [⟨"http://h/".toList, some [("hash".toList, "x".toList)]⟩] ∧
    ((([(⟨"http://h/".toList, some [("hash".toList, "x".toList)]⟩ : CrawlPage)] :
        List CrawlPage).length : Int) ≤ 1) :=
  ⟨by decide, by decide,
    generate_site_map_respects_budget crawlFetch1 crawlJoin1
      "http://h/".toList none 1 5000 4
      [⟨"http://h/".toList, some [("hash".toList, "x".toList)]⟩]
      (by decide) (by decide)⟩

end DomSphere